import Mathlib

/-!
Verification of the per-function / per-instruction semantic translation engine
(`lib/DC/DCFunction.cpp`): a shallow embedding of the translator state machine
(value stack, semantics-tape cursor, basic-block map, call-block list) together
with the IR it emits, and proofs of the specified properties.

Modelling conventions:
* IR values are symbolic expression trees (`Val`); the observable effects of
  translation (register reads/writes, memory accesses, calls, branches,
  returns) are recorded in order in each basic block's `body`.  Pure SSA value
  construction (`CreateAdd`, `CreateZExt`, ...) builds `Val` nodes and emits no
  observable effect, mirroring the fact that `IRBuilder` may constant-fold
  them.
* Machine integers (addresses, sizes, widths, tape tokens) are `Nat`; the
  `~0U` sentinel of `OpcodeToSemaIdx` is the explicit constant `UNS`.
* The semantics tape is a list of tokens.  The numeric encodings of ISD /
  DCINS opcode enums and of value types live in LLVM headers outside this
  repository, so a token is modelled as an already-decoded tag (`Token`);
  the three dispatch ranges of the source (`< BUILTIN_OP_END`,
  target range, `≥ DC_OPCODE_START`) map to the constructor groups of
  `SemaOp` (standard opcodes, `TARGET n`, pseudo-opcodes).
* Collaborators that live outside `src/` (DCRegisterSema, DCModule, target
  hooks) are parameters of an environment `Env`; the hook-free instantiation
  (`NoHooks`) corresponds to the core translator with every virtual target
  hook declining, as the core's own defaults do.
-/

namespace DC

/-- IR-level types as used by the translator core. -/
inductive Ty
  | int (w : Nat)
  | fp (w : Nat)
  | vec (n : Nat) (elt : Ty)
  | ptrTo (pointee : Ty)
  | regSetT
deriving DecidableEq, Repr

/-- `Type::getPrimitiveSizeInBits` (pointers and the opaque regset type have
primitive size 0 in LLVM). -/
def Ty.bits : Ty → Nat
  | .int w => w
  | .fp w => w
  | .vec n t => n * t.bits
  | .ptrTo _ => 0
  | .regSetT => 0

/-- `Type::isIntegerTy`. -/
def Ty.isIntTy : Ty → Bool
  | .int _ => true
  | _ => false

/-- `Type::isPointerTy`. -/
def Ty.isPtrTy : Ty → Bool
  | .ptrTo _ => true
  | _ => false

/-- Element type of a vector type (used by `CreateExtractElement`). -/
def Ty.eltTy : Ty → Ty
  | .vec _ t => t
  | t => t

/-- Width of an integer type; `cast<IntegerType>` asserts in the source, a
non-integer argument is a generator bug and is modelled as width 0. -/
def Ty.asIntWidth : Ty → Nat
  | .int w => w
  | _ => 0

/-- An `EVT` read from the tape: either a concrete IR type or the special
`iPTR` tag that `MOV_CONSTANT` resolves to a 64-bit integer (source FIXME:
hard-coded, should consult the data layout). -/
inductive VT
  | ty (t : Ty)
  | iPTR
deriving DecidableEq, Repr

/-- `EVT::getTypeForEVT`; on `iPTR` the source never calls this (it
special-cases `MOV_CONSTANT`), so the `iPTR` branch is only reached by
malformed tapes and is modelled as `i64`. -/
def VT.toTy : VT → Ty
  | .ty t => t
  | .iPTR => .int 64

/-- `Instruction::BinaryOps`. -/
inductive BinOp
  | add | fadd | sub | fsub | mul | fmul
  | udiv | sdiv | fdiv | urem | srem | frem
  | shl | lshr | ashr | and | or | xor
deriving DecidableEq, Repr

/-- `Instruction::isShift`. -/
def BinOp.isShift : BinOp → Bool
  | .shl => true
  | .lshr => true
  | .ashr => true
  | _ => false

/-- `Instruction::CastOps`. -/
inductive CastOp
  | trunc | bitcast | zext | sext
  | fptoui | fptosi | uitofp | sitofp
  | fptrunc | fpext | inttoptr | ptrtoint
deriving DecidableEq, Repr

/-- Symbolic IR values (SSA expression trees). -/
inductive Val
  | reg (r : Nat) (t : Ty)
  | cst (t : Ty) (n : Nat)
  | arg
  | savedRegSet
  | currentInstrPtr
  | binop (op : BinOp) (a b : Val)
  | cast (op : CastOp) (t : Ty) (v : Val)
  | load (t : Ty) (p : Val)
  | insertElt (vec v ix : Val)
  | extractElt (v ix : Val)
  | insertBits (whole narrow : Val)
  | sqrtCall (v : Val)
  | bswapCall (t : Ty) (v : Val)
  | translateAtPtr (target : Val)
deriving DecidableEq, Repr

/-- `Value::getType`. -/
def Val.ty : Val → Ty
  | .reg _ t => t
  | .cst t _ => t
  | .arg => .ptrTo .regSetT
  | .savedRegSet => .ptrTo .regSetT
  | .currentInstrPtr => .ptrTo (.int 64)
  | .binop _ a _ => a.ty
  | .cast _ t _ => t
  | .load t _ => t
  | .insertElt v _ _ => v.ty
  | .extractElt v _ => v.ty.eltTy
  | .insertBits w _ => w.ty
  | .sqrtCall v => v.ty
  | .bswapCall t _ => t
  | .translateAtPtr _ => .ptrTo (.int 8)

/-- `cast<ConstantInt>(V)->getValue().getZExtValue()`; asserts in the source
on non-constants, modelled as 0 there. -/
def Val.asConstNat : Val → Nat
  | .cst _ n => n
  | _ => 0

/-- Call targets appearing in emitted `call` instructions. -/
inductive Callee
  | trap
  | translateAt
  | diffFn
  | func (addr : Nat)
  | viaPtr (v : Val)
  | sqrtI (t : Ty)
  | bswapI (t : Ty)
deriving DecidableEq, Repr

/-- Observable IR instructions recorded in a basic block, in emission order. -/
inductive Inst
  | readReg (r : Nat)
  | writeReg (r : Nat) (v : Val)
  | loadMem (t : Ty) (p : Val)
  | storeMem (v p : Val)
  | call (c : Callee) (args : List Val)
  | fence (ord scope : Nat)
  | saveLocalRegs
  | restoreLocalRegs
  | br (b : Nat)
  | ret
  | unreachable
deriving DecidableEq, Repr

/-- An IR basic block: its name and its body. -/
structure Blk where
  name : String
  body : List Inst
deriving DecidableEq, Repr

/-- The `TargetOpcode::Predicate` identifiers handled by
`DCFunction::translatePredicate`; `other` stands for every unhandled
predicate number. -/
inductive Pred
  | memop | loadi16 | loadi32
  | alignedload | alignedload256 | alignedload512 | load
  | alignednontemporalstore | nontemporalstore
  | alignedstore | alignedstore256 | alignedstore512 | store
  | zextloadi8 | zextloadi16
  | sextloadi8 | sextloadi16 | sextloadi32
  | and_su
  | other (n : Nat)
deriving DecidableEq, Repr

/-- Semantic opcodes: the standard ISD opcodes handled by the big switch of
`translateOpcode`, the DCINS pseudo-opcodes, the target range
(`TARGET n`), and `UNKNOWN n` for every standard opcode the switch does not
handle (its default case). -/
inductive SemaOp
  | ADD | FADD | SUB | FSUB | MUL | FMUL
  | UDIV | SDIV | FDIV | UREM | SREM | FREM
  | SHL | SRL | SRA | AND | OR | XOR
  | TRUNCATE | BITCAST | ZERO_EXTEND | SIGN_EXTEND
  | FP_TO_UINT | FP_TO_SINT | UINT_TO_FP | SINT_TO_FP
  | FP_ROUND | FP_EXTEND
  | FSQRT | ROTL
  | INSERT_VECTOR_ELT | EXTRACT_VECTOR_ELT
  | SMUL_LOHI | UMUL_LOHI
  | LOAD | STORE
  | BRIND | BR | TRAP | BSWAP | ATOMIC_FENCE
  | PUT_RC | PUT_REG | GET_RC | GET_REG
  | CUSTOM_OP | COMPLEX_PATTERN | PREDICATE
  | CONSTANT_OP | MOV_CONSTANT | IMPLICIT
  | END_OF_INSTRUCTION
  | TARGET (n : Nat)
  | UNKNOWN (n : Nat)
deriving Repr

/-- One token of `SemanticsArray`.  The array is a flat stream of `unsigned`;
since the numeric enum encodings live outside this repository the tokens are
modelled pre-decoded, with total projections for each way the stream is
consumed. -/
inductive Token
  | op (o : SemaOp)
  | vt (t : VT)
  | num (n : Nat)
deriving Repr

/-- Reading a token as a semantic opcode (`Opcode = Next()`). -/
def Token.asOp : Token → SemaOp
  | .op o => o
  | .vt _ => .UNKNOWN 0
  | .num n => .UNKNOWN n

/-- Reading a token as a value type (`NextVT`). -/
def Token.asVT : Token → VT
  | .vt t => t
  | _ => .ty (.int 0)

/-- Reading a token as an inline numeric operand. -/
def Token.asNum : Token → Nat
  | .num n => n
  | _ => 0

/-- An `MCOperand`: register number or immediate. -/
inductive MCOp
  | reg (r : Nat)
  | imm (n : Nat)
deriving DecidableEq, Repr

/-- A decoded machine instruction (`MCDecodedInst`). -/
structure MCDecodedInst where
  address : Nat
  size : Nat
  opcode : Nat
  ops : List MCOp
deriving DecidableEq, Repr

/-- The `~0U` sentinel of `OpcodeToSemaIdx`. -/
def UNS : Nat := 4294967295

/-- Translation state of one `DCFunction`: the IR function's blocks (indexed
by creation order, `nblk` blocks so far), the address → block map, the
recorded call blocks, the current insertion block, the entry/exit/diff-exit
ids, the per-instruction value stack and tape cursor and scratch. -/
structure St where
  blk : Nat → Blk
  nblk : Nat
  bbByAddr : List (Nat × Nat)
  callBBs : List Nat
  theBB : Nat
  exitBB : Nat
  diffBB : Nat
  vals : List Val
  idx : Nat
  resEVT : VT
  curInst : Option MCDecodedInst

/-- Block with a given id. -/
def St.blockAt (s : St) (i : Nat) : Blk := s.blk i

/-- Pointwise update of the block table. -/
def updBlk (f : Nat → Blk) (i : Nat) (b : Blk) : Nat → Blk :=
  fun j => if j = i then b else f j

/-- Replace block `i`. -/
def setBlk (s : St) (i : Nat) (b : Blk) : St :=
  { s with blk := updBlk s.blk i b }

/-- Append an instruction at the end of block `i`. -/
def appendAt (s : St) (i : Nat) (inst : Inst) : St :=
  setBlk s i ⟨(s.blockAt i).name, (s.blockAt i).body ++ [inst]⟩

/-- Append at the builder's insertion point (always `TheBB`). -/
def emit (s : St) (inst : Inst) : St := appendAt s s.theBB inst

/-- `BasicBlock::Create`: new block at the end of the function. -/
def newBlock (s : St) (nm : String) (body : List Inst) : Nat × St :=
  (s.nblk, { s with blk := updBlk s.blk s.nblk ⟨nm, body⟩, nblk := s.nblk + 1 })

/-- Association-list lookup for the `BBByAddr` map. -/
def lookupA : List (Nat × Nat) → Nat → Option Nat
  | [], _ => none
  | (k, v) :: t, a => if k = a then some v else lookupA t a

/-- One hex digit, uppercase, as `llvm::hexdigit` with `LowerCase = false`. -/
def hexChar (n : Nat) : Char :=
  if n < 10 then Char.ofNat (48 + n) else Char.ofNat (55 + n)

/-- Digits of `n` in base 16, least significant first. -/
def hexCharsRev (n : Nat) : List Char :=
  if h : n < 16 then [hexChar n]
  else
    hexChar (n % 16) :: hexCharsRev (n / 16)
termination_by n
decreasing_by
  exact Nat.div_lt_self (Nat.lt_of_lt_of_le (by norm_num) (Nat.le_of_not_lt h)) (by norm_num)

/-- `llvm::utohexstr`: uppercase hex, no leading zeros, "0" for 0. -/
def hexStr (n : Nat) : String := ⟨(hexCharsRev n).reverse⟩

/-- `BBName.substr(0, BBName.find_first_of("_c"))`: the name up to the first
occurrence of either character. -/
def nameBase (nm : String) : String :=
  ⟨nm.toList.takeWhile fun c => ¬ (c = '_' ∨ c = 'c')⟩

/-- Environment: the semantics tape tables, the register-semantics
collaborator's parameters, the target hooks, and the three policy flags. -/
structure Env where
  sem : List Token
  constArr : List Nat
  opcodeToSemaIdx : Nat → Nat
  programCounter : Nat
  getRegType : Nat → Ty
  getRegIntWidth : Nat → Nat
  predOf : Nat → Pred
  translateTargetInstH : MCDecodedInst → St → Option St
  translateTargetOpcodeH : Nat → St → Option St
  translateComplexPatternH : Nat → St → Option (Val × St)
  translateCustomOperandH : Nat → Nat → St → Option (Val × St)
  translateImplicitH : Nat → St → St
  enableRegSetDiff : Bool
  enableInstAddrSave : Bool
  translateUnknownToUndef : Bool

/-- The core translator: every virtual target hook declines, as the core's
own (non-overridden) implementations do. -/
def NoHooks (e : Env) : Prop :=
  (∀ di s, e.translateTargetInstH di s = none) ∧
  (∀ n s, e.translateTargetOpcodeH n s = none) ∧
  (∀ p s, e.translateComplexPatternH p s = none) ∧
  (∀ o m s, e.translateCustomOperandH o m s = none) ∧
  (∀ r s, e.translateImplicitH r s = s)

/-- `DCFunction::translateComplexPattern` (the core's own implementation,
lines 625-628): returns null for every pattern. -/
def translateComplexPatternCore (pattern : Nat) : Option Val :=
  none

/-- The core default lifted to a hook: never produces a value. -/
def coreComplexPatternHook : Nat → St → Option (Val × St) :=
  fun p s => (translateComplexPatternCore p).map fun v => (v, s)

/-- Modelled from the spec: register access goes through the RSI collaborator
(`DCRegisterSema`, declared in headers not present under `src/`); reading a
register is an observable effect yielding the register's typed value and
writing records the new value (spec §4.5; §8 scenario 1 shows the
getreg/setreg pairs in the emitted IR). -/
def getReg (e : Env) (s : St) (r : Nat) : Val × St :=
  (Val.reg r (e.getRegType r), emit s (.readReg r))

/-- Modelled from the spec: RSI register write, see `getReg`. -/
def setReg (e : Env) (s : St) (r : Nat) (v : Val) : St :=
  emit s (.writeReg r v)

/-- Modelled from the spec: `DRS.getRegAsInt` (spec §4.5), the register read
back as an integer of the register's integer type. -/
def getRegAsInt (e : Env) (s : St) (r : Nat) : Val × St :=
  (Val.reg r (.int (e.getRegIntWidth r)), emit s (.readReg r))

/-- Modelled from the spec: value-stack consumption (`getNextOperand`,
declared in the missing `DCFunction.h`).  Results are appended in emission
order and operands are consumed first-pushed-first (spec §3 VS; §8 scenario 1
fixes the operand order).  An empty stack is a generator bug; modelled with a
default value. -/
def getNextOperand (s : St) : Val × St :=
  match s.vals with
  | v :: rest => (v, { s with vals := rest })
  | [] => (Val.cst (.int 0) 0, s)

/-- Modelled from the spec: value-stack push (`registerResult`, declared in
the missing `DCFunction.h`). -/
def registerResult (s : St) (v : Val) : St :=
  { s with vals := s.vals ++ [v] }

/-- `Next()`: the token at the cursor, cursor advanced.  Reads past the end
are undefined (the generator terminates every stream with
`END_OF_INSTRUCTION`); modelled as reading `END_OF_INSTRUCTION`. -/
def next (e : Env) (s : St) : Token × St :=
  (e.sem.getD s.idx (.op .END_OF_INSTRUCTION), { s with idx := s.idx + 1 })

/-- `NextVT()`. -/
def nextVT (e : Env) (s : St) : VT × St :=
  let (t, s) := next e s
  (t.asVT, s)

/-- `getRegOp(MIOperandNo)`: the register number of an MC operand of the
current instruction. -/
def getRegOp (s : St) (i : Nat) : Nat :=
  match (match s.curInst with | some di => di.ops | none => []).getD i (.imm 0) with
  | .reg r => r
  | _ => 0

/-- `getImmOp(MIOperandNo)`. -/
def getImmOp (s : St) (i : Nat) : Nat :=
  match (match s.curInst with | some di => di.ops | none => []).getD i (.imm 0) with
  | .imm n => n
  | _ => 0

/-- `DCFunction::getOrCreateBasicBlock` (lines 178-189): look up the block
for `addr`; if absent create `bb_<hex(addr)>` with body
`trap(); unreachable` and record it. -/
def getOrCreateBasicBlock (s : St) (addr : Nat) : Nat × St :=
  match lookupA s.bbByAddr addr with
  | some b => (b, s)
  | none =>
    let (b, s) := newBlock s ("bb_" ++ hexStr addr) [.call .trap [], .unreachable]
    (b, { s with bbByAddr := (addr, b) :: s.bbByAddr })

/-- `DCFunction::prepareBasicBlockForInsertion` (lines 142-147): erase the
two placeholder instructions (asserted to be exactly `trap; unreachable`). -/
def prepareBasicBlockForInsertion (s : St) (b : Nat) : St :=
  setBlk s b ⟨(s.blockAt b).name, (s.blockAt b).body.drop 2⟩

/-- `DCFunction::SwitchToBasicBlock(uint64_t)` (lines 154-166): open the
block at `beginAddr`, set the insertion point, and initialize PC to the
block's start address. -/
def switchToBasicBlock (e : Env) (s : St) (beginAddr : Nat) : St :=
  let (b, s) := getOrCreateBasicBlock s beginAddr
  let s := prepareBasicBlockForInsertion s b
  let s := { s with theBB := b }
  setReg e s e.programCounter (.cst (e.getRegType e.programCounter) beginAddr)

/-- `DCFunction::FinalizeBasicBlock` (lines 120-126): if the current block
has no terminator, branch to the block at the MC block's end address.
(The source then nulls `TheBB`/`TheMCBB`; dereferencing them before the next
switch is UB in C++ and the model keeps the stale id.) -/
def finalizeBasicBlock (e : Env) (s : St) (endAddr : Nat) : St :=
  let hasTerm : Bool :=
    match (s.blockAt s.theBB).body.getLast? with
    | some (.br _) => true
    | some .ret => true
    | some .unreachable => true
    | _ => false
  if hasTerm then s
  else
    let (b, s) := getOrCreateBasicBlock s endAddr
    emit s (.br b)

/-- `DCFunction::insertCallBB` (lines 191-213): split at the insertion
point; a sibling `<name>_call` block holds `call target(regset)`, the
current block branches into it, a successor `<base>_c<addr>` block is opened,
the call block branches to the successor, and the call block is recorded. -/
def insertCallBB (s : St) (target : Callee) : St :=
  let parentName := (s.blockAt s.theBB).name
  let (callId, s) := newBlock s (parentName ++ "_call") [.call target [.arg]]
  let s := emit s (.br callId)
  let base := nameBase parentName
  let callInstAddr := match s.curInst with | some di => hexStr di.address | none => ""
  let (succId, s) := newBlock s (base ++ "_c" ++ callInstAddr) []
  let s := { s with theBB := succId }
  let s := appendAt s callId (.br succId)
  { s with callBBs := s.callBBs ++ [callId] }

/-- `DCFunction::insertTranslateAt` (lines 215-220): call the
`dc_translate_at` intrinsic on the target address and use its result (bitcast
to the translated-function type) as callee. -/
def insertTranslateAt (s : St) (origTarget : Val) : Val × St :=
  let s := emit s (.call .translateAt [.cast .inttoptr (.ptrTo (.int 8)) origTarget])
  (.translateAtPtr origTarget, s)

/-- `DCFunction::insertCall` (lines 222-230): constant targets resolve to the
IR function at that address, others go through `translate_at`; then a call
block is inserted. -/
def insertCall (s : St) (callTarget : Val) : St :=
  match callTarget with
  | .cst _ n => insertCallBB s (.func n)
  | v =>
    let (fv, s) := insertTranslateAt s v
    insertCallBB s (.viaPtr fv)

/-- `DCFunction::translateBinOp` (lines 232-238). -/
def translateBinOp (s : St) (opc : BinOp) : St :=
  let (v1, s) := getNextOperand s
  let (v2, s) := getNextOperand s
  let v2 := if opc.isShift ∧ v2.ty ≠ v1.ty then Val.cast .zext v1.ty v2 else v2
  registerResult s (.binop opc v1 v2)

/-- `DCFunction::translateCastOp` (lines 240-244). -/
def translateCastOp (s : St) (opc : CastOp) : St :=
  let resType := s.resEVT.toTy
  let (v, s) := getNextOperand s
  registerResult s (.cast opc resType v)

/-- The `ISD::LOAD` body (lines 461-470), also reused verbatim by the load
predicates (lines 642-658). -/
def doLoad (s : St) : St :=
  let resT := s.resEVT.toTy
  let (p, s) := getNextOperand s
  let p :=
    if ¬ p.ty.isPtrTy then Val.cast .inttoptr (.ptrTo resT) p
    else if p.ty ≠ Ty.ptrTo resT then Val.cast .bitcast (.ptrTo resT) p
    else p
  let s := emit s (.loadMem resT p)
  registerResult s (.load resT p)

/-- The `ISD::STORE` body (lines 471-482), also reused verbatim by the store
predicates (lines 659-676). -/
def doStore (s : St) : St :=
  let (v, s) := getNextOperand s
  let (p, s) := getNextOperand s
  let vp := Ty.ptrTo v.ty
  let p :=
    if ¬ p.ty.isPtrTy then Val.cast .inttoptr vp p
    else if p.ty ≠ vp then Val.cast .bitcast vp p
    else p
  emit s (.storeMem v p)

/-- `DCFunction::translateExtLoad` (lines 630-638). -/
def translateExtLoad (s : St) (memTy : Ty) (isSExt : Bool) : Bool × St :=
  let (p0, s) := getNextOperand s
  let p := Val.cast (if p0.ty.isPtrTy then CastOp.bitcast else CastOp.inttoptr)
      (.ptrTo memTy) p0
  let s := emit s (.loadMem memTy p)
  let resType := s.resEVT.toTy
  (true, registerResult s
    (.cast (if isSExt then CastOp.sext else CastOp.zext) resType (.load memTy p)))

/-- `DCFunction::translatePredicate` (lines 640-694). -/
def translatePredicate (s : St) (p : Pred) : Bool × St :=
  match p with
  | .memop | .loadi16 | .loadi32
  | .alignedload | .alignedload256 | .alignedload512 | .load =>
    (true, doLoad s)
  | .alignednontemporalstore | .nontemporalstore
  | .alignedstore | .alignedstore256 | .alignedstore512 | .store =>
    (true, doStore s)
  | .zextloadi8 => translateExtLoad s (.int 8) false
  | .zextloadi16 => translateExtLoad s (.int 16) false
  | .sextloadi8 => translateExtLoad s (.int 8) true
  | .sextloadi16 => translateExtLoad s (.int 16) true
  | .sextloadi32 => translateExtLoad s (.int 32) true
  | .and_su => (true, translateBinOp s .and)
  | .other _ => (false, s)

/-- `DCFunction::translateOpcode` (lines 299-623). -/
def translateOpcode (e : Env) (s : St) (opcode : SemaOp) : Bool × St :=
  let (rvt, s) := nextVT e s
  let s := { s with resEVT := rvt }
  match opcode with
  | .TARGET n =>
    match e.translateTargetOpcodeH n s with
    | some s1 => (true, s1)
    | none => (false, s)
  | .ADD => (true, translateBinOp s .add)
  | .FADD => (true, translateBinOp s .fadd)
  | .SUB => (true, translateBinOp s .sub)
  | .FSUB => (true, translateBinOp s .fsub)
  | .MUL => (true, translateBinOp s .mul)
  | .FMUL => (true, translateBinOp s .fmul)
  | .UDIV => (true, translateBinOp s .udiv)
  | .SDIV => (true, translateBinOp s .sdiv)
  | .FDIV => (true, translateBinOp s .fdiv)
  | .UREM => (true, translateBinOp s .urem)
  | .SREM => (true, translateBinOp s .srem)
  | .FREM => (true, translateBinOp s .frem)
  | .SHL => (true, translateBinOp s .shl)
  | .SRL => (true, translateBinOp s .lshr)
  | .SRA => (true, translateBinOp s .ashr)
  | .AND => (true, translateBinOp s .and)
  | .OR => (true, translateBinOp s .or)
  | .XOR => (true, translateBinOp s .xor)
  | .TRUNCATE => (true, translateCastOp s .trunc)
  | .BITCAST => (true, translateCastOp s .bitcast)
  | .ZERO_EXTEND => (true, translateCastOp s .zext)
  | .SIGN_EXTEND => (true, translateCastOp s .sext)
  | .FP_TO_UINT => (true, translateCastOp s .fptoui)
  | .FP_TO_SINT => (true, translateCastOp s .fptosi)
  | .UINT_TO_FP => (true, translateCastOp s .uitofp)
  | .SINT_TO_FP => (true, translateCastOp s .sitofp)
  | .FP_ROUND => (true, translateCastOp s .fptrunc)
  | .FP_EXTEND => (true, translateCastOp s .fpext)
  | .FSQRT =>
    let (v, s) := getNextOperand s
    let s := emit s (.call (.sqrtI v.ty) [v])
    (true, registerResult s (.sqrtCall v))
  | .ROTL =>
    let (lhs, s) := getNextOperand s
    let t := lhs.ty
    let (r0, s) := getNextOperand s
    let rhs := Val.cast .zext t r0
    let shlV := Val.binop .shl lhs rhs
    (true, registerResult s
      (.binop .or shlV (.binop .lshr lhs (.binop .sub (.cst t t.bits) rhs))))
  | .INSERT_VECTOR_ELT =>
    let (vec, s) := getNextOperand s
    let (v, s) := getNextOperand s
    let (ix, s) := getNextOperand s
    (true, registerResult s (.insertElt vec v ix))
  | .EXTRACT_VECTOR_ELT =>
    let (v, s) := getNextOperand s
    let (ix, s) := getNextOperand s
    (true, registerResult s (.extractElt v ix))
  | .SMUL_LOHI =>
    let (re2, s) := nextVT e s
    let lw := s.resEVT.toTy.asIntWidth
    let hw := re2.toTy.asIntWidth
    let (o1, s) := getNextOperand s
    let (o2, s) := getNextOperand s
    let full := Val.binop .mul (.cast .sext (.int (lw + hw)) o1)
        (.cast .sext (.int (lw + hw)) o2)
    let s := registerResult s (.cast .trunc (.int lw) full)
    (true, registerResult s
      (.cast .trunc (.int hw) (.binop .lshr full (.cst (.int (lw + hw)) lw))))
  | .UMUL_LOHI =>
    let (re2, s) := nextVT e s
    let lw := s.resEVT.toTy.asIntWidth
    let hw := re2.toTy.asIntWidth
    let (o1, s) := getNextOperand s
    let (o2, s) := getNextOperand s
    let full := Val.binop .mul (.cast .zext (.int (lw + hw)) o1)
        (.cast .zext (.int (lw + hw)) o2)
    let s := registerResult s (.cast .trunc (.int lw) full)
    (true, registerResult s
      (.cast .trunc (.int hw) (.binop .lshr full (.cst (.int (lw + hw)) lw))))
  | .LOAD => (true, doLoad s)
  | .STORE => (true, doStore s)
  | .BRIND =>
    let (op1, s) := getNextOperand s
    let s := setReg e s e.programCounter op1
    let s := insertCall s op1
    (true, emit s (.br s.exitBB))
  | .BR =>
    let (op1, s) := getNextOperand s
    let target := op1.asConstNat
    let s := setReg e s e.programCounter op1
    let (b, s) := getOrCreateBasicBlock s target
    (true, emit s (.br b))
  | .TRAP => (true, emit s (.call .trap []))
  | .PUT_RC =>
    let (t1, s) := next e s
    let regNo := getRegOp s t1.asNum
    let (res0, s) := getNextOperand s
    let regW := e.getRegIntWidth regNo
    let res1 := if res0.ty.isPtrTy then Val.cast .ptrtoint (.int regW) res0 else res0
    let res2 := if ¬ res1.ty.isIntTy then Val.cast .bitcast (.int res1.ty.bits) res1 else res1
    if res2.ty.bits < regW then
      let (whole, s) := getRegAsInt e s regNo
      (true, setReg e s regNo (.insertBits whole res2))
    else
      (true, setReg e s regNo res2)
  | .PUT_REG =>
    let (t1, s) := next e s
    let (res, s) := getNextOperand s
    (true, setReg e s t1.asNum res)
  | .GET_RC =>
    let (t1, s) := next e s
    let resType := s.resEVT.toTy
    let (reg0, s) := getRegAsInt e s (getRegOp s t1.asNum)
    let reg1 := if resType.bits < reg0.ty.bits then Val.cast .trunc (.int resType.bits) reg0 else reg0
    let reg2 := if ¬ resType.isIntTy then Val.cast .bitcast resType reg1 else reg1
    (true, registerResult s reg2)
  | .GET_REG =>
    let (t1, s) := next e s
    let (v, s) := getReg e s t1.asNum
    (true, registerResult s v)
  | .CUSTOM_OP =>
    let (t1, s) := next e s
    let (t2, s) := next e s
    match e.translateCustomOperandH t1.asNum t2.asNum s with
    | none => (false, s)
    | some (v, s1) => (true, registerResult s1 v)
  | .COMPLEX_PATTERN =>
    let (t1, s) := next e s
    match e.translateComplexPatternH t1.asNum s with
    | none => (false, s)
    | some (v, s1) => (true, registerResult s1 v)
  | .PREDICATE =>
    let (t1, s) := next e s
    translatePredicate s (e.predOf t1.asNum)
  | .CONSTANT_OP =>
    let (t1, s) := next e s
    let resType := s.resEVT.toTy
    (true, registerResult s (.cst resType (getImmOp s t1.asNum)))
  | .MOV_CONSTANT =>
    let (t1, s) := next e s
    let resType := match s.resEVT with
      | .iPTR => Ty.int 64
      | .ty t => t
    (true, registerResult s (.cst resType (e.constArr.getD t1.asNum 0)))
  | .IMPLICIT =>
    let (t1, s) := next e s
    (true, e.translateImplicitH t1.asNum s)
  | .BSWAP =>
    let resType := s.resEVT.toTy
    let (v, s) := getNextOperand s
    let s := emit s (.call (.bswapI resType) [v])
    (true, registerResult s (.bswapCall resType v))
  | .ATOMIC_FENCE =>
    let (o, s) := getNextOperand s
    let (sc, s) := getNextOperand s
    let ordV := o.asConstNat
    let scopeV := sc.asConstNat
    -- the source aborts (`llvm_unreachable`) on invalid ordering or scope;
    -- generator-produced tapes never reach that branch
    if (1 ≤ ordV ∧ ordV ≤ 7) ∧ (scopeV = 0 ∨ scopeV = 1) then
      (true, emit s (.fence ordV scopeV))
    else
      (true, s)
  | .END_OF_INSTRUCTION => (false, s)
  | .UNKNOWN _ => (false, s)

/-- The tape-walking loop of `tryTranslateInst` (lines 292-294), with explicit
fuel; `tryTranslateInst` supplies enough fuel for the cursor to run off the
end of the tape, where `Next()` is modelled as yielding
`END_OF_INSTRUCTION`. -/
def opcodeLoop (e : Env) : Nat → St → Bool × St
  | 0, s => (true, s)
  | fuel + 1, s =>
    let (tok, s) := next e s
    match tok.asOp with
    | .END_OF_INSTRUCTION => (true, s)
    | o =>
      match translateOpcode e s o with
      | (true, s1) => opcodeLoop e fuel s1
      | (false, s1) => (false, s1)

/-- `DCFunction::tryTranslateInst` (lines 276-297). -/
def tryTranslateInst (e : Env) (s : St) (di : MCDecodedInst) : Bool × St :=
  match e.translateTargetInstH di s with
  | some s1 => (true, s1)
  | none =>
    let semaIdx := e.opcodeToSemaIdx di.opcode
    if semaIdx = UNS then (false, s)
    else
      let s := { s with idx := semaIdx }
      -- Increment the PC before anything.
      let (oldPC, s) := getReg e s e.programCounter
      let s := setReg e s e.programCounter (.binop .add oldPC (.cst oldPC.ty di.size))
      opcodeLoop e (e.sem.length + 1) s

/-- The `EnableInstAddrSave` step of `translateInst` (lines 250-257): a
volatile store of the instruction's address to the process-wide
`__llvm_dc_current_instr` sink. -/
def instAddrSaveStep (e : Env) (s : St) (di : MCDecodedInst) : St :=
  if e.enableInstAddrSave then
    emit s (.storeMem (.cst (.int 64) di.address) .currentInstrPtr)
  else s

/-- `DCFunction::translateInst` (lines 246-274): set the current instruction,
optionally volatile-store its address, try the translation, on failure with
the undef policy emit `trap; unreachable` and report success, and on every
return clear the value stack and the current-instruction pointer. -/
def translateInst (e : Env) (s : St) (di : MCDecodedInst) : Bool × St :=
  let s1 := instAddrSaveStep e { s with curInst := some di } di
  let r := tryTranslateInst e s1 di
  let r2 :=
    if !r.1 && e.translateUnknownToUndef then
      (true, emit (emit r.2 (.call .trap [])) .unreachable)
    else r
  (r2.1, { r2.2 with vals := [], curInst := none })

/-- The `DCFunction` constructor (lines 48-106): entry and exit blocks, the
optional regset-diff plumbing, and the branch from entry to the block at the
function's start address. -/
def mkDCFunction (e : Env) (startAddr : Nat) : St :=
  let s0 : St :=
    { blk := fun _ => ⟨"", []⟩, nblk := 0, bbByAddr := [], callBBs := [],
      theBB := 0, exitBB := 0, diffBB := 0, vals := [], idx := 0,
      resEVT := .ty (.int 0), curInst := none }
  let (entryId, s) := newBlock s0 ("entry_fn_" ++ hexStr startAddr) []
  let (exitId, s) := newBlock s ("exit_fn_" ++ hexStr startAddr) []
  let s := { s with theBB := entryId, exitBB := exitId }
  let s :=
    if e.enableRegSetDiff then
      -- save the incoming regset in the entry block
      let s := emit s (.loadMem .regSetT .arg)
      let s := emit s (.storeMem (.load .regSetT .arg) .savedRegSet)
      -- diff-exit block: call the diff function, then return
      let (diffId, s) := newBlock s ("diff_exit_fn_" ++ hexStr startAddr)
        [.call .diffFn
          [.cast .inttoptr (.ptrTo (.int 8)) (.cst (.int 64) startAddr),
           .savedRegSet, .arg],
         .ret]
      let s := appendAt s exitId (.br diffId)
      { s with diffBB := diffId }
    else
      let s := appendAt s exitId .ret
      { s with diffBB := exitId }
  let (firstBB, s) := getOrCreateBasicBlock s startAddr
  emit s (.br firstBB)

/-- `DCFunction::createExternalTailCallBB` (lines 128-136). -/
def createExternalTailCallBB (e : Env) (s : St) (addr : Nat) : St :=
  let s := switchToBasicBlock e s addr
  let s := insertCallBB s (.func addr)
  emit s .ret

/-- `DRS.saveAllLocalRegs` before the call and `DRS.restoreLocalRegs` after
it, on a recorded call block's body. -/
def insertSaveRestore : List Inst → List Inst
  | c :: rest => .saveLocalRegs :: c :: .restoreLocalRegs :: rest
  | [] => [.saveLocalRegs, .restoreLocalRegs]

/-- `DCFunction::~DCFunction` (lines 108-118): wrap every recorded call block
with register save/restore, then hand the exit block to
`DRS.FinalizeFunction` (returned as the second component). -/
def finalizeDCFunction (s : St) : St × Nat :=
  (s.callBBs.foldl
    (fun acc cb => setBlk acc cb ⟨(acc.blockAt cb).name, insertSaveRestore (acc.blockAt cb).body⟩)
    s,
   s.exitBB)

/-- Successors of a block: the targets of its `br` instructions. -/
def succsOf (s : St) (b : Nat) : List Nat :=
  (s.blockAt b).body.filterMap fun i =>
    match i with
    | .br t => some t
    | _ => none

/-- `p` is a path through the emitted control-flow graph. -/
def isPathB (s : St) : List Nat → Bool
  | [] => true
  | [_] => true
  | a :: b :: rest => ((succsOf s a).any fun x => x = b) && isPathB s (b :: rest)

/-- The path ends at a block containing a `ret`. -/
def endsInRet (s : St) (p : List Nat) : Bool :=
  match p.getLast? with
  | some b => (s.blockAt b).body.any fun i => i = Inst.ret
  | none => false

/-- Number of calls to the regset-diff function in a body. -/
def diffCallsIn (body : List Inst) : Nat :=
  (body.filter fun i =>
    match i with
    | .call .diffFn _ => true
    | _ => false).length

/-- Number of diff calls a path passes through. -/
def pathDiffCount (s : St) (p : List Nat) : Nat :=
  (p.map fun b => diffCallsIn (s.blockAt b).body).sum

/-- Number of `translate_at` intrinsic calls in a body. -/
def translateAtCallsIn (body : List Inst) : Nat :=
  (body.filter fun i =>
    match i with
    | .call .translateAt _ => true
    | _ => false).length

/-- Number of `translate_at` intrinsic calls in the whole function. -/
def countTranslateAt (s : St) : Nat :=
  ((List.range s.nblk).map fun b => translateAtCallsIn (s.blockAt b).body).sum

/-- The structural part of the translation state: everything except the
per-instruction scratch (`vals`, `idx`, `resEVT`, `curInst`). -/
structure Core where
  blk : Nat → Blk
  nblk : Nat
  bbByAddr : List (Nat × Nat)
  callBBs : List Nat
  theBB : Nat
  exitBB : Nat
  diffBB : Nat

/-- Project the structural part of a state. -/
def St.core (s : St) : Core :=
  ⟨s.blk, s.nblk, s.bbByAddr, s.callBBs, s.theBB, s.exitBB, s.diffBB⟩

/-- Index of the first address-mapped block (entry is 0, exit is 1, and with
regset diffing the diff-exit block is 2). -/
def entryBase (e : Env) : Nat :=
  if e.enableRegSetDiff then 3 else 2

/-- The body of the diff-exit block created by the constructor. -/
def diffExitBody (startAddr : Nat) : List Inst :=
  [.call .diffFn
    [.cast .inttoptr (.ptrTo (.int 8)) (.cst (.int 64) startAddr),
     .savedRegSet, .arg],
   .ret]

/-- Structural invariant of every reachable translation state: the exit and
diff-exit blocks keep the bodies the constructor gave them, the regset-diff
function is called nowhere else, address-mapped blocks and recorded call
blocks live above the constructor-created blocks, every recorded call block
is exactly `{call, br}`, and the insertion block is never one of the
protected blocks. -/
structure Inv (e : Env) (startAddr : Nat) (s : St) : Prop where
  exit_eq : s.exitBB = 1
  diff_eq : s.diffBB = if e.enableRegSetDiff then 2 else 1
  base_le : entryBase e ≤ s.nblk
  theBB_lt : s.theBB < s.nblk
  theBB_ne_exit : s.theBB ≠ 1
  theBB_ne_diff : e.enableRegSetDiff = true → s.theBB ≠ 2
  theBB_notin : s.theBB ∉ s.callBBs
  exit_body : (s.blockAt 1).body = if e.enableRegSetDiff then [.br 2] else [.ret]
  diff_body : e.enableRegSetDiff = true → (s.blockAt 2).body = diffExitBody startAddr
  entry_saves : e.enableRegSetDiff = true →
    ∃ t, (s.blockAt 0).body =
      .loadMem .regSetT .arg :: .storeMem (.load .regSetT .arg) .savedRegSet :: t
  map_ok : ∀ a b, lookupA s.bbByAddr a = some b →
    entryBase e ≤ b ∧ b < s.nblk ∧ b ∉ s.callBBs
  call_ok : ∀ cb ∈ s.callBBs, entryBase e ≤ cb ∧ cb < s.nblk ∧
    ∃ c as t, (s.blockAt cb).body = [.call c as, .br t]
  call_nodup : s.callBBs.Nodup
  diff_only : ∀ b, b ≠ s.diffBB → diffCallsIn (s.blockAt b).body = 0

/-- `s'` extends `s`: no block body of `s` has been rewritten, only appended
to, and no block has been removed. -/
def Extends (s s' : St) : Prop :=
  s.nblk ≤ s'.nblk ∧
  ∀ b, b < s.nblk → ∃ t, (s'.blockAt b).body = (s.blockAt b).body ++ t

/-- A step of the interpreter is good: it preserves the structural invariant
and only extends block bodies. -/
def Good (e : Env) (startAddr : Nat) (s s' : St) : Prop :=
  (Inv e startAddr s → Inv e startAddr s') ∧ Extends s s'

/-- States reachable through the public per-function translation API, from a
freshly constructed `DCFunction`. -/
inductive Reach (e : Env) (startAddr : Nat) : St → Prop
  | init : Reach e startAddr (mkDCFunction e startAddr)
  | switchBB {s} (a : Nat) : Reach e startAddr s →
      Reach e startAddr (switchToBasicBlock e s a)
  | finalizeBB {s} (endA : Nat) : Reach e startAddr s →
      Reach e startAddr (finalizeBasicBlock e s endA)
  | transInst {s} (di : MCDecodedInst) : Reach e startAddr s →
      Reach e startAddr (translateInst e s di).2
  | extTailCall {s} (a : Nat) : Reach e startAddr s →
      Reach e startAddr (createExternalTailCallBB e s a)

/-- A hook-free environment with the given tape, constant pool, opcode
index map and policy flags (register 100 is the program counter, all
registers are 64-bit integers). -/
def mkEnv (semT : List Token) (ca : List Nat) (o2s : Nat → Nat)
    (diff save undef : Bool) : Env :=
  { sem := semT, constArr := ca, opcodeToSemaIdx := o2s,
    programCounter := 100,
    getRegType := fun _ => .int 64, getRegIntWidth := fun _ => 64,
    predOf := fun _ => .other 0,
    translateTargetInstH := fun _ _ => none,
    translateTargetOpcodeH := fun _ _ => none,
    translateComplexPatternH := fun _ _ => none,
    translateCustomOperandH := fun _ _ _ => none,
    translateImplicitH := fun _ s => s,
    enableRegSetDiff := diff, enableInstAddrSave := save,
    translateUnknownToUndef := undef }

/-! ### Concrete environments and states used to exercise the model -/

/-- A hook-free environment with an empty tape and every policy flag off. -/
def envOff : Env := mkEnv [] [] (fun _ => UNS) false false false

/-- A hook-free environment with regset diffing enabled. -/
def envOn : Env := mkEnv [] [] (fun _ => UNS) true false false

/-- A 4-byte decoded instruction at address 0x1000 with MC opcode 7. -/
def diW : MCDecodedInst := ⟨4096, 4, 7, []⟩

/-- Semantics tape of an instruction that loads the 64-bit constant-pool
entry 0 and then branches indirectly to it (a jump to a constant target
encoded through `BRIND`, as an x86 `jmp [rip+c]` lowers). -/
def tapeBR : List Token :=
  [.op .MOV_CONSTANT, .vt (.ty (.int 64)), .num 0,
   .op .BRIND, .vt (.ty (.int 64)),
   .op .END_OF_INSTRUCTION]

/-- Diff-enabled environment whose only instruction semantics is `tapeBR`
with constant pool entry 0x2000. -/
def envBR : Env := mkEnv tapeBR [8192] (fun _ => 0) true false false

/-- The function produced by translating an external tail call at the start
address, with regset diffing enabled. -/
def sTC : St := createExternalTailCallBB envOn (mkDCFunction envOn 4096) 4096

/-- The function produced by translating the constant-target `BRIND`
instruction `diW` in a block at the start address. -/
def sBR : St :=
  (translateInst envBR (switchToBasicBlock envBR (mkDCFunction envBR 4096) 4096) diW).2

/-- Hook-free environment whose tape is a single `END_OF_INSTRUCTION`. -/
def envC1 : Env := mkEnv [.op .END_OF_INSTRUCTION] [] (fun _ => 0) false false false

/-- A block at the start address opened for insertion under `envC1`. -/
def sC1 : St := switchToBasicBlock envC1 (mkDCFunction envC1 4096) 4096

/-- Hook-free environment that maps every MC opcode to the missing-semantics
sentinel and enables the unknown-to-undef policy. -/
def envC2 : Env := mkEnv [] [] (fun _ => UNS) false false true

/-- A block at the start address opened for insertion under `envC2`. -/
def sC2 : St := switchToBasicBlock envC2 (mkDCFunction envC2 4096) 4096

/-- A freshly constructed function under `envOff`. -/
def stB : St := mkDCFunction envOff 4096

/-- A minimal state whose value stack holds a 64-bit and a 32-bit register
value. -/
def stC4 : St :=
  { blk := fun _ => ⟨"", []⟩, nblk := 1, bbByAddr := [], callBBs := [],
    theBB := 0, exitBB := 0, diffBB := 0,
    vals := [.reg 1 (.int 64), .reg 2 (.int 32)], idx := 0,
    resEVT := .ty (.int 0), curInst := none }

/-- Hook-free environment whose tape starts with two `i32` value types, as a
`SMUL_LOHI`/`UMUL_LOHI` record does. -/
def envC5 : Env :=
  mkEnv [.vt (.ty (.int 32)), .vt (.ty (.int 32))] [] (fun _ => UNS) false false false

/-- A minimal state with two 32-bit operands on the value stack. -/
def stC5 : St := { stC4 with vals := [.reg 1 (.int 32), .reg 2 (.int 32)] }

/-- An open block whose value stack holds one non-constant 64-bit target. -/
def stC6 : St := { sC1 with vals := [.reg 5 (.int 64)] }

/-- Hook-free environment, with the complex-pattern hook spelled as the
core's own defaulted implementation, whose tape is a single
`COMPLEX_PATTERN` record. -/
def envC9 : Env :=
  { mkEnv [.op .COMPLEX_PATTERN, .vt (.ty (.int 32)), .num 0,
           .op .END_OF_INSTRUCTION] [] (fun _ => 0) false false false with
    translateComplexPatternH := coreComplexPatternHook }

/-! ### Basic state lemmas -/

theorem blockAt_setBlk (s : St) (i : Nat) (b : Blk) (j : Nat) :
    (setBlk s i b).blockAt j = if j = i then b else s.blockAt j := rfl

theorem blockAt_emit (s : St) (inst : Inst) (j : Nat) :
    (emit s inst).blockAt j =
      if j = s.theBB then
        ⟨(s.blockAt s.theBB).name, (s.blockAt s.theBB).body ++ [inst]⟩
      else s.blockAt j := rfl

theorem blockAt_appendAt (s : St) (i : Nat) (inst : Inst) (j : Nat) :
    (appendAt s i inst).blockAt j =
      if j = i then ⟨(s.blockAt i).name, (s.blockAt i).body ++ [inst]⟩
      else s.blockAt j := rfl

theorem diffCallsIn_append (a b : List Inst) :
    diffCallsIn (a ++ b) = diffCallsIn a + diffCallsIn b := by
  simp [diffCallsIn, List.filter_append]

theorem diffCallsIn_drop_le (l : List Inst) (n : Nat) :
    diffCallsIn (l.drop n) ≤ diffCallsIn l := by
  unfold diffCallsIn
  exact List.Sublist.length_le (List.Sublist.filter _ (List.drop_sublist n l))

theorem diffCallsIn_call_ne (c : Callee) (as : List Val) (hc : c ≠ .diffFn) :
    diffCallsIn [Inst.call c as] = 0 := by
  cases c <;> simp_all [diffCallsIn]

/-! ### Extends and Good -/

theorem extends_refl (s : St) : Extends s s :=
  ⟨le_refl _, fun _ _ => ⟨[], by simp⟩⟩

theorem extends_trans {s1 s2 s3 : St} (h1 : Extends s1 s2) (h2 : Extends s2 s3) :
    Extends s1 s3 := by
  refine ⟨le_trans h1.1 h2.1, fun b hb => ?_⟩
  obtain ⟨t1, ht1⟩ := h1.2 b hb
  obtain ⟨t2, ht2⟩ := h2.2 b (lt_of_lt_of_le hb h1.1)
  exact ⟨t1 ++ t2, by rw [ht2, ht1, List.append_assoc]⟩

theorem inv_of_core_eq {e : Env} {st : Nat} {s s' : St}
    (h : s'.core = s.core) (hs : Inv e st s) : Inv e st s' := by
  have hblk : s'.blk = s.blk := congrArg Core.blk h
  have hnblk : s'.nblk = s.nblk := congrArg Core.nblk h
  have hmap : s'.bbByAddr = s.bbByAddr := congrArg Core.bbByAddr h
  have hcall : s'.callBBs = s.callBBs := congrArg Core.callBBs h
  have hthe : s'.theBB = s.theBB := congrArg Core.theBB h
  have hexit : s'.exitBB = s.exitBB := congrArg Core.exitBB h
  have hdiff : s'.diffBB = s.diffBB := congrArg Core.diffBB h
  have hba : ∀ j, s'.blockAt j = s.blockAt j := fun j => by
    unfold St.blockAt; rw [hblk]
  exact
    { exit_eq := hexit ▸ hs.exit_eq
      diff_eq := hdiff ▸ hs.diff_eq
      base_le := hnblk ▸ hs.base_le
      theBB_lt := by rw [hthe, hnblk]; exact hs.theBB_lt
      theBB_ne_exit := hthe ▸ hs.theBB_ne_exit
      theBB_ne_diff := fun hf => hthe ▸ hs.theBB_ne_diff hf
      theBB_notin := by rw [hthe, hcall]; exact hs.theBB_notin
      exit_body := by rw [hba]; exact hs.exit_body
      diff_body := fun hf => by rw [hba]; exact hs.diff_body hf
      entry_saves := fun hf => by rw [hba]; exact hs.entry_saves hf
      map_ok := by rw [hmap, hnblk, hcall]; exact hs.map_ok
      call_ok := by
        intro cb hm
        rw [hcall] at hm
        obtain ⟨h1, h2, c, as, t, hb⟩ := hs.call_ok cb hm
        exact ⟨h1, by rw [hnblk]; exact h2, c, as, t, by rw [hba]; exact hb⟩
      call_nodup := hcall ▸ hs.call_nodup
      diff_only := fun b hb => by
        rw [hba]; exact hs.diff_only b (by rw [hdiff] at hb; exact hb) }

theorem good_of_core_eq {e : Env} {st : Nat} {s s' : St}
    (h : s'.core = s.core) : Good e st s s' := by
  have hblk : s'.blk = s.blk := congrArg Core.blk h
  have hnblk : s'.nblk = s.nblk := congrArg Core.nblk h
  refine ⟨inv_of_core_eq h, le_of_eq hnblk.symm, fun b _ => ⟨[], ?_⟩⟩
  unfold St.blockAt; rw [hblk]; simp

theorem good_refl (e : Env) (st : Nat) (s : St) : Good e st s s :=
  ⟨id, extends_refl s⟩

theorem good_trans {e : Env} {st : Nat} {s1 s2 s3 : St}
    (h1 : Good e st s1 s2) (h2 : Good e st s2 s3) : Good e st s1 s3 :=
  ⟨fun hs => h2.1 (h1.1 hs), extends_trans h1.2 h2.2⟩

/-! ### Good/Inv for the primitives -/

theorem core_getNextOperand (s : St) : (getNextOperand s).2.core = s.core := by
  unfold getNextOperand
  rcases s.vals with _ | ⟨a, t⟩ <;> rfl

theorem core_registerResult (s : St) (v : Val) :
    (registerResult s v).core = s.core := rfl

theorem inv_emit {e : Env} {st : Nat} {s : St} (hs : Inv e st s) {inst : Inst}
    (h0 : diffCallsIn [inst] = 0) : Inv e st (emit s inst) :=
  { exit_eq := hs.exit_eq
    diff_eq := hs.diff_eq
    base_le := hs.base_le
    theBB_lt := hs.theBB_lt
    theBB_ne_exit := hs.theBB_ne_exit
    theBB_ne_diff := hs.theBB_ne_diff
    theBB_notin := hs.theBB_notin
    exit_body := by
      rw [blockAt_emit, if_neg (fun h => hs.theBB_ne_exit h.symm)]
      exact hs.exit_body
    diff_body := fun hf => by
      rw [blockAt_emit, if_neg (fun h => hs.theBB_ne_diff hf h.symm)]
      exact hs.diff_body hf
    entry_saves := fun hf => by
      obtain ⟨t, ht⟩ := hs.entry_saves hf
      rw [blockAt_emit]
      by_cases h0b : (0 : Nat) = s.theBB
      · rw [if_pos h0b]
        exact ⟨t ++ [inst], by rw [← h0b, ht]; simp⟩
      · rw [if_neg h0b]; exact ⟨t, ht⟩
    map_ok := hs.map_ok
    call_ok := by
      intro cb hm
      obtain ⟨h1, h2, c, as, t, hb⟩ := hs.call_ok cb hm
      refine ⟨h1, h2, c, as, t, ?_⟩
      rw [blockAt_emit, if_neg (fun (h : cb = s.theBB) => hs.theBB_notin (h ▸ hm))]
      exact hb
    call_nodup := hs.call_nodup
    diff_only := by
      intro b hb
      rw [blockAt_emit]
      by_cases hbt : b = s.theBB
      · rw [if_pos hbt, diffCallsIn_append, hs.diff_only s.theBB (hbt ▸ hb), h0]
      · rw [if_neg hbt]; exact hs.diff_only b hb }

theorem extends_emit (s : St) (inst : Inst) : Extends s (emit s inst) := by
  refine ⟨le_refl _, fun b _ => ?_⟩
  rw [blockAt_emit]
  by_cases hbt : b = s.theBB
  · exact ⟨[inst], by rw [if_pos hbt, hbt]⟩
  · exact ⟨[], by rw [if_neg hbt]; simp⟩

theorem good_emit {e : Env} {st : Nat} {s : St} {inst : Inst}
    (h0 : diffCallsIn [inst] = 0) : Good e st s (emit s inst) :=
  ⟨fun hs => inv_emit hs h0, extends_emit s inst⟩

theorem two_le_entryBase (e : Env) : 2 ≤ entryBase e := by
  unfold entryBase; split <;> omega

theorem entryBase_of_diff {e : Env} (h : e.enableRegSetDiff = true) :
    entryBase e = 3 := by
  simp [entryBase, h]

theorem getOrCreate_eq_of_found {s : St} {a b : Nat}
    (h : lookupA s.bbByAddr a = some b) :
    getOrCreateBasicBlock s a = (b, s) := by
  unfold getOrCreateBasicBlock; rw [h]

theorem getOrCreate_eq_of_none {s : St} {a : Nat}
    (h : lookupA s.bbByAddr a = none) :
    getOrCreateBasicBlock s a =
      (s.nblk,
       { s with
          blk := updBlk s.blk s.nblk
            ⟨"bb_" ++ hexStr a, [.call .trap [], .unreachable]⟩,
          nblk := s.nblk + 1,
          bbByAddr := (a, s.nblk) :: s.bbByAddr }) := by
  unfold getOrCreateBasicBlock newBlock; rw [h]

theorem good_getOrCreate {e : Env} {st : Nat} {s : St} {a : Nat} :
    Good e st s (getOrCreateBasicBlock s a).2 := by
  cases hl : lookupA s.bbByAddr a with
  | some b => rw [getOrCreate_eq_of_found hl]; exact good_refl e st s
  | none =>
    rw [getOrCreate_eq_of_none hl]
    constructor
    · intro hs
      have h2 : 2 ≤ s.nblk := le_trans (two_le_entryBase e) hs.base_le
      have h3 : e.enableRegSetDiff = true → 3 ≤ s.nblk := fun hf =>
        le_trans (le_of_eq (entryBase_of_diff hf).symm) hs.base_le
      refine
        { exit_eq := hs.exit_eq, diff_eq := hs.diff_eq,
          base_le := le_trans hs.base_le (Nat.le_succ _),
          theBB_lt := Nat.lt_succ_of_lt hs.theBB_lt,
          theBB_ne_exit := hs.theBB_ne_exit,
          theBB_ne_diff := hs.theBB_ne_diff,
          theBB_notin := hs.theBB_notin,
          call_nodup := hs.call_nodup,
          exit_body := ?_, diff_body := ?_, entry_saves := ?_,
          map_ok := ?_, call_ok := ?_, diff_only := ?_ }
      · simp only [St.blockAt, updBlk]
        rw [if_neg (by omega)]
        exact hs.exit_body
      · intro hf
        have := h3 hf
        simp only [St.blockAt, updBlk]
        rw [if_neg (by omega)]
        exact hs.diff_body hf
      · intro hf
        simp only [St.blockAt, updBlk]
        rw [if_neg (by omega)]
        exact hs.entry_saves hf
      · intro a' b' h'
        simp only [lookupA] at h'
        by_cases haa : a = a'
        · rw [if_pos haa] at h'
          injection h' with h'
          subst h'
          exact ⟨hs.base_le, Nat.lt_succ_self _,
            fun hmem => absurd ((hs.call_ok _ hmem).2.1) (lt_irrefl _)⟩
        · rw [if_neg haa] at h'
          obtain ⟨g1, g2, g3⟩ := hs.map_ok a' b' h'
          exact ⟨g1, Nat.lt_succ_of_lt g2, g3⟩
      · intro cb hm
        obtain ⟨g1, g2, c, as, t, hb⟩ := hs.call_ok cb hm
        refine ⟨g1, Nat.lt_succ_of_lt g2, c, as, t, ?_⟩
        simp only [St.blockAt, updBlk]
        rw [if_neg (by omega)]
        exact hb
      · intro b hb
        simp only [St.blockAt, updBlk]
        by_cases hbn : b = s.nblk
        · rw [if_pos hbn]; simp [diffCallsIn]
        · rw [if_neg hbn]; exact hs.diff_only b hb
    · refine ⟨Nat.le_succ _, fun b hb => ⟨[], ?_⟩⟩
      simp only [St.blockAt, updBlk]
      rw [if_neg (by omega)]
      simp

theorem getOrCreate_spec {e : Env} {st : Nat} {s : St} {a : Nat}
    (hs : Inv e st s) :
    entryBase e ≤ (getOrCreateBasicBlock s a).1 ∧
    (getOrCreateBasicBlock s a).1 < (getOrCreateBasicBlock s a).2.nblk ∧
    (getOrCreateBasicBlock s a).1 ∉ (getOrCreateBasicBlock s a).2.callBBs := by
  cases hl : lookupA s.bbByAddr a with
  | some b =>
    rw [getOrCreate_eq_of_found hl]
    exact hs.map_ok a b hl
  | none =>
    rw [getOrCreate_eq_of_none hl]
    exact ⟨hs.base_le, Nat.lt_succ_self _,
      fun hmem => absurd ((hs.call_ok _ hmem).2.1) (lt_irrefl _)⟩

theorem inv_openAt {e : Env} {st : Nat} {s : St} {b : Nat} (hs : Inv e st s)
    (hb1 : entryBase e ≤ b) (hb2 : b < s.nblk) (hb3 : b ∉ s.callBBs) :
    Inv e st { prepareBasicBlockForInsertion s b with theBB := b } := by
  have h2 : 2 ≤ b := le_trans (two_le_entryBase e) hb1
  have h3 : e.enableRegSetDiff = true → 3 ≤ b := fun hf =>
    le_trans (le_of_eq (entryBase_of_diff hf).symm) hb1
  have hbd : b ≠ s.diffBB := by
    rw [hs.diff_eq]
    cases hf : e.enableRegSetDiff
    · simp only [hf, Bool.false_eq_true, if_false]; omega
    · simp only [hf, if_true]; have := h3 hf; omega
  unfold prepareBasicBlockForInsertion setBlk
  refine
    { exit_eq := hs.exit_eq, diff_eq := hs.diff_eq, base_le := hs.base_le,
      theBB_lt := hb2, theBB_ne_exit := by show b ≠ 1; omega,
      theBB_ne_diff := fun hf => by show b ≠ 2; have := h3 hf; omega,
      theBB_notin := hb3, call_nodup := hs.call_nodup,
      map_ok := hs.map_ok,
      exit_body := ?_, diff_body := ?_, entry_saves := ?_,
      call_ok := ?_, diff_only := ?_ }
  · simp only [St.blockAt, updBlk]
    rw [if_neg (by omega)]
    exact hs.exit_body
  · intro hf
    have := h3 hf
    simp only [St.blockAt, updBlk]
    rw [if_neg (by omega)]
    exact hs.diff_body hf
  · intro hf
    simp only [St.blockAt, updBlk]
    rw [if_neg (by omega)]
    exact hs.entry_saves hf
  · intro cb hm
    obtain ⟨g1, g2, c, as, t, hb⟩ := hs.call_ok cb hm
    refine ⟨g1, g2, c, as, t, ?_⟩
    simp only [St.blockAt, updBlk]
    rw [if_neg (fun (h : cb = b) => hb3 (h ▸ hm))]
    exact hb
  · intro j hj
    simp only [St.blockAt, updBlk]
    by_cases hjb : j = b
    · rw [if_pos hjb]
      refine Nat.le_zero.mp ?_
      calc diffCallsIn ((s.blockAt b).body.drop 2) ≤ diffCallsIn (s.blockAt b).body :=
            diffCallsIn_drop_le _ _
        _ = 0 := hs.diff_only b hbd
    · rw [if_neg hjb]; exact hs.diff_only j hj

theorem inv_switch {e : Env} {st : Nat} {s : St} {a : Nat} (hs : Inv e st s) :
    Inv e st (switchToBasicBlock e s a) := by
  unfold switchToBasicBlock
  have hspec := getOrCreate_spec (a := a) hs
  have hinv1 : Inv e st (getOrCreateBasicBlock s a).2 :=
    (good_getOrCreate (a := a)).1 hs
  rcases hg : getOrCreateBasicBlock s a with ⟨b, s1⟩
  rw [hg] at hspec hinv1
  exact inv_emit (inv_openAt hinv1 hspec.1 hspec.2.1 hspec.2.2) (by simp [diffCallsIn])

theorem inv_finalizeBB {e : Env} {st : Nat} {s : St} {endA : Nat}
    (hs : Inv e st s) : Inv e st (finalizeBasicBlock e s endA) := by
  have hinv1 : Inv e st (getOrCreateBasicBlock s endA).2 :=
    (good_getOrCreate (a := endA)).1 hs
  unfold finalizeBasicBlock
  rcases hg : getOrCreateBasicBlock s endA with ⟨b, s1⟩
  rw [hg] at hinv1
  split
  · exact hs
  · exact hs
  · exact hs
  · exact inv_emit hinv1 (by simp [diffCallsIn])

/-- The block bodies after `insertCallBB`, as a function of the block id. -/
theorem insertCallBB_bodies (s : St) (c : Callee) (j : Nat)
    (hlt : s.theBB < s.nblk) :
    ((insertCallBB s c).blockAt j).body =
      if j = s.nblk then [.call c [.arg], .br (s.nblk + 1)]
      else if j = s.nblk + 1 then []
      else if j = s.theBB then (s.blockAt s.theBB).body ++ [.br s.nblk]
      else (s.blockAt j).body := by
  unfold insertCallBB newBlock emit appendAt setBlk St.blockAt updBlk
  have h1 : ¬ s.theBB = s.nblk := by omega
  have h2 : ¬ s.theBB = s.nblk + 1 := by omega
  have h3 : ¬ s.nblk = s.theBB := by omega
  simp only [h1, h2, h3, if_false, if_true]
  by_cases hj1 : j = s.nblk
  · simp [hj1, h3]
  · by_cases hj2 : j = s.nblk + 1
    · simp [hj1, hj2, Nat.succ_ne_self]
    · by_cases hj3 : j = s.theBB
      · simp [hj1, hj2, hj3, h1, h2]
      · simp [hj1, hj2, hj3]

theorem insertCallBB_fields (s : St) (c : Callee) :
    (insertCallBB s c).nblk = s.nblk + 2 ∧
    (insertCallBB s c).theBB = s.nblk + 1 ∧
    (insertCallBB s c).callBBs = s.callBBs ++ [s.nblk] ∧
    (insertCallBB s c).bbByAddr = s.bbByAddr ∧
    (insertCallBB s c).exitBB = s.exitBB ∧
    (insertCallBB s c).diffBB = s.diffBB := by
  unfold insertCallBB newBlock emit appendAt setBlk
  exact ⟨rfl, rfl, rfl, rfl, rfl, rfl⟩

theorem good_insertCallBB {e : Env} {st : Nat} {s : St} {c : Callee}
    (hc : c ≠ .diffFn) : Good e st s (insertCallBB s c) := by
  obtain ⟨hf1, hf2, hf3, hf4, hf5, hf6⟩ := insertCallBB_fields s c
  constructor
  · intro hs
    have h2 : 2 ≤ s.nblk := le_trans (two_le_entryBase e) hs.base_le
    have h3 : e.enableRegSetDiff = true → 3 ≤ s.nblk := fun hf =>
      le_trans (le_of_eq (entryBase_of_diff hf).symm) hs.base_le
    have hbody := insertCallBB_bodies s c
    refine
      { exit_eq := by rw [hf5]; exact hs.exit_eq
        diff_eq := by rw [hf6]; exact hs.diff_eq
        base_le := by have hb := hs.base_le; rw [hf1]; omega
        theBB_lt := by rw [hf2, hf1]; omega
        theBB_ne_exit := by rw [hf2]; omega
        theBB_ne_diff := fun hf => by rw [hf2]; have := h3 hf; omega
        theBB_notin := by
          rw [hf2, hf3]
          intro hmem
          rcases List.mem_append.mp hmem with hmem | hmem
          · exact absurd ((hs.call_ok _ hmem).2.1) (by omega)
          · simp only [List.mem_singleton] at hmem; omega
        call_nodup := by
          rw [hf3]
          refine List.Nodup.append hs.call_nodup (List.nodup_singleton _) ?_
          intro x hx hx'
          simp at hx'
          subst hx'
          exact absurd ((hs.call_ok _ hx).2.1) (lt_irrefl _)
        exit_body := ?_, diff_body := ?_, entry_saves := ?_,
        map_ok := ?_, call_ok := ?_, diff_only := ?_ }
    · rw [hbody 1 hs.theBB_lt, if_neg (by omega), if_neg (by omega),
        if_neg (fun (h : 1 = s.theBB) => hs.theBB_ne_exit h.symm)]
      exact hs.exit_body
    · intro hf
      have := h3 hf
      rw [hbody 2 hs.theBB_lt, if_neg (by omega), if_neg (by omega),
        if_neg (fun (h : 2 = s.theBB) => hs.theBB_ne_diff hf h.symm)]
      exact hs.diff_body hf
    · intro hf
      obtain ⟨t, ht⟩ := hs.entry_saves hf
      rw [hbody 0 hs.theBB_lt, if_neg (by omega), if_neg (by omega)]
      by_cases h0b : (0 : Nat) = s.theBB
      · rw [if_pos h0b]
        exact ⟨t ++ [.br s.nblk], by rw [← h0b, ht]; simp⟩
      · rw [if_neg h0b]; exact ⟨t, ht⟩
    · intro a' b' h'
      rw [hf4] at h'
      obtain ⟨g1, g2, g3⟩ := hs.map_ok a' b' h'
      refine ⟨g1, by rw [hf1]; omega, ?_⟩
      rw [hf3]
      intro hmem
      rcases List.mem_append.mp hmem with hmem | hmem
      · exact g3 hmem
      · simp only [List.mem_singleton] at hmem; omega
    · intro cb hm
      rw [hf3] at hm
      rcases List.mem_append.mp hm with hm | hm
      · obtain ⟨g1, g2, cc, as, t, hb⟩ := hs.call_ok cb hm
        refine ⟨g1, by rw [hf1]; omega, cc, as, t, ?_⟩
        rw [hbody cb hs.theBB_lt, if_neg (by omega), if_neg (by omega),
          if_neg (fun (h : cb = s.theBB) => hs.theBB_notin (h ▸ hm))]
        exact hb
      · simp at hm
        subst hm
        refine ⟨hs.base_le, by rw [hf1]; omega, c, [.arg], s.nblk + 1, ?_⟩
        rw [hbody s.nblk hs.theBB_lt, if_pos rfl]
    · intro b hb
      rw [hf6] at hb
      have hdlt : s.diffBB < s.nblk := by
        rw [hs.diff_eq]
        cases hfe : e.enableRegSetDiff
        · simp [hfe]; omega
        · simp [hfe]; have := h3 hfe; omega
      rw [hbody b hs.theBB_lt]
      by_cases hb1 : b = s.nblk
      · rw [if_pos hb1,
          show [Inst.call c [Val.arg], Inst.br (s.nblk + 1)] =
            [Inst.call c [Val.arg]] ++ [Inst.br (s.nblk + 1)] from rfl,
          diffCallsIn_append, diffCallsIn_call_ne c [.arg] hc]
        simp [diffCallsIn]
      · rw [if_neg hb1]
        by_cases hb2 : b = s.nblk + 1
        · rw [if_pos hb2]; simp [diffCallsIn]
        · rw [if_neg hb2]
          by_cases hb3 : b = s.theBB
          · rw [if_pos hb3, diffCallsIn_append,
              hs.diff_only s.theBB (hb3 ▸ hb)]
            simp [diffCallsIn]
          · rw [if_neg hb3]; exact hs.diff_only b hb
  · refine ⟨by rw [hf1]; omega, fun b hb => ?_⟩
    unfold insertCallBB newBlock emit appendAt setBlk St.blockAt updBlk
    have h1 : ¬ b = s.nblk := by omega
    have h2 : ¬ b = s.nblk + 1 := by omega
    simp only [h1, h2, if_false]
    by_cases hb3 : b = s.theBB
    · by_cases hbn : s.theBB = s.nblk
      · exfalso; omega
      · simp only [hb3, if_true, hbn, if_false]
        exact ⟨[.br s.nblk], rfl⟩
    · simp only [hb3, if_false]
      exact ⟨[], by simp⟩

theorem good_insertCall {e : Env} {st : Nat} {s : St} {v : Val} :
    Good e st s (insertCall s v) := by
  cases v
  case cst t n => exact good_insertCallBB (by simp)
  all_goals
    exact good_trans (good_emit (by simp [diffCallsIn]))
      (good_insertCallBB (by simp))

theorem good_setReg {e : Env} {st : Nat} {s : St} {r : Nat} {v : Val} :
    Good e st s (setReg e s r v) :=
  good_emit (by simp [diffCallsIn])

theorem good_getReg {e : Env} {st : Nat} {s : St} {r : Nat} :
    Good e st s (getReg e s r).2 :=
  good_emit (by simp [diffCallsIn])

theorem good_getRegAsInt {e : Env} {st : Nat} {s : St} {r : Nat} :
    Good e st s (getRegAsInt e s r).2 :=
  good_emit (by simp [diffCallsIn])

/-! ### Good for the interpreter helpers -/

theorem good_push {e : Env} {st : Nat} {s s2 : St} {v : Val}
    (h : s2.core = s.core) : Good e st s (registerResult s2 v) :=
  good_trans (good_of_core_eq h) (good_of_core_eq (core_registerResult _ _))

theorem good_pop_emit {e : Env} {st : Nat} {s s2 : St} {i : Inst}
    (h : s2.core = s.core) (h0 : diffCallsIn [i] = 0) :
    Good e st s (emit s2 i) :=
  good_trans (good_of_core_eq h) (good_emit h0)

theorem good_pop_emit_push {e : Env} {st : Nat} {s s2 : St} {i : Inst} {v : Val}
    (h : s2.core = s.core) (h0 : diffCallsIn [i] = 0) :
    Good e st s (registerResult (emit s2 i) v) :=
  good_trans (good_pop_emit h h0) (good_of_core_eq (core_registerResult _ _))

theorem good_pop_setReg {e : Env} {st : Nat} {s s2 : St} {r : Nat} {v : Val}
    (h : s2.core = s.core) : Good e st s (setReg e s2 r v) :=
  good_trans (good_of_core_eq h) good_setReg

theorem good_pop_emit_setReg {e : Env} {st : Nat} {s s2 : St} {i : Inst}
    {r : Nat} {v : Val} (h : s2.core = s.core) (h0 : diffCallsIn [i] = 0) :
    Good e st s (setReg e (emit s2 i) r v) :=
  good_trans (good_pop_emit h h0) good_setReg

theorem good_translateBinOp {e : Env} {st : Nat} {s : St} {op : BinOp} :
    Good e st s (translateBinOp s op) := by
  obtain ⟨bl, nb, mp, cb, tb, ex, df, vs, ix, ev, ci⟩ := s
  unfold translateBinOp getNextOperand
  rcases vs with _ | ⟨a, _ | ⟨b, t⟩⟩ <;> exact good_push rfl

theorem good_translateCastOp {e : Env} {st : Nat} {s : St} {op : CastOp} :
    Good e st s (translateCastOp s op) := by
  obtain ⟨bl, nb, mp, cb, tb, ex, df, vs, ix, ev, ci⟩ := s
  unfold translateCastOp getNextOperand
  rcases vs with _ | ⟨a, t⟩ <;> exact good_push rfl

theorem good_doLoad {e : Env} {st : Nat} {s : St} : Good e st s (doLoad s) := by
  obtain ⟨bl, nb, mp, cb, tb, ex, df, vs, ix, ev, ci⟩ := s
  unfold doLoad getNextOperand
  rcases vs with _ | ⟨a, t⟩ <;>
    exact good_pop_emit_push rfl (by simp [diffCallsIn])

theorem good_doStore {e : Env} {st : Nat} {s : St} : Good e st s (doStore s) := by
  obtain ⟨bl, nb, mp, cb, tb, ex, df, vs, ix, ev, ci⟩ := s
  unfold doStore getNextOperand
  rcases vs with _ | ⟨a, _ | ⟨b, t⟩⟩ <;>
    exact good_pop_emit rfl (by simp [diffCallsIn])

theorem good_translateExtLoad {e : Env} {st : Nat} {s : St} {memTy : Ty}
    {sx : Bool} : Good e st s (translateExtLoad s memTy sx).2 := by
  obtain ⟨bl, nb, mp, cb, tb, ex, df, vs, ix, ev, ci⟩ := s
  unfold translateExtLoad getNextOperand
  rcases vs with _ | ⟨a, t⟩ <;>
    exact good_pop_emit_push rfl (by simp [diffCallsIn])

theorem good_translatePredicate {e : Env} {st : Nat} {s : St} {p : Pred} :
    Good e st s (translatePredicate s p).2 := by
  cases p <;>
    first
      | exact good_doLoad
      | exact good_doStore
      | exact good_translateExtLoad
      | exact good_translateBinOp
      | exact good_refl e st s

theorem good_translateOpcode {e : Env} {st : Nat} {s : St}
    (hn : NoHooks e) (o : SemaOp) :
    Good e st s (translateOpcode e s o).2 := by
  obtain ⟨hni, hno, hncp, hnco, hnim⟩ := hn
  obtain ⟨bl, nb, mp, cb, tb, ex, df, vs, ix, ev, ci⟩ := s
  unfold translateOpcode nextVT next getNextOperand
  dsimp only
  cases o
  all_goals dsimp only
  case TARGET n =>
    rw [hno]
    exact good_of_core_eq rfl
  case ADD => refine good_trans ?_ good_translateBinOp; exact good_of_core_eq rfl
  case FADD => refine good_trans ?_ good_translateBinOp; exact good_of_core_eq rfl
  case SUB => refine good_trans ?_ good_translateBinOp; exact good_of_core_eq rfl
  case FSUB => refine good_trans ?_ good_translateBinOp; exact good_of_core_eq rfl
  case MUL => refine good_trans ?_ good_translateBinOp; exact good_of_core_eq rfl
  case FMUL => refine good_trans ?_ good_translateBinOp; exact good_of_core_eq rfl
  case UDIV => refine good_trans ?_ good_translateBinOp; exact good_of_core_eq rfl
  case SDIV => refine good_trans ?_ good_translateBinOp; exact good_of_core_eq rfl
  case FDIV => refine good_trans ?_ good_translateBinOp; exact good_of_core_eq rfl
  case UREM => refine good_trans ?_ good_translateBinOp; exact good_of_core_eq rfl
  case SREM => refine good_trans ?_ good_translateBinOp; exact good_of_core_eq rfl
  case FREM => refine good_trans ?_ good_translateBinOp; exact good_of_core_eq rfl
  case SHL => refine good_trans ?_ good_translateBinOp; exact good_of_core_eq rfl
  case SRL => refine good_trans ?_ good_translateBinOp; exact good_of_core_eq rfl
  case SRA => refine good_trans ?_ good_translateBinOp; exact good_of_core_eq rfl
  case AND => refine good_trans ?_ good_translateBinOp; exact good_of_core_eq rfl
  case OR => refine good_trans ?_ good_translateBinOp; exact good_of_core_eq rfl
  case XOR => refine good_trans ?_ good_translateBinOp; exact good_of_core_eq rfl
  case TRUNCATE => refine good_trans ?_ good_translateCastOp; exact good_of_core_eq rfl
  case BITCAST => refine good_trans ?_ good_translateCastOp; exact good_of_core_eq rfl
  case ZERO_EXTEND => refine good_trans ?_ good_translateCastOp; exact good_of_core_eq rfl
  case SIGN_EXTEND => refine good_trans ?_ good_translateCastOp; exact good_of_core_eq rfl
  case FP_TO_UINT => refine good_trans ?_ good_translateCastOp; exact good_of_core_eq rfl
  case FP_TO_SINT => refine good_trans ?_ good_translateCastOp; exact good_of_core_eq rfl
  case UINT_TO_FP => refine good_trans ?_ good_translateCastOp; exact good_of_core_eq rfl
  case SINT_TO_FP => refine good_trans ?_ good_translateCastOp; exact good_of_core_eq rfl
  case FP_ROUND => refine good_trans ?_ good_translateCastOp; exact good_of_core_eq rfl
  case FP_EXTEND => refine good_trans ?_ good_translateCastOp; exact good_of_core_eq rfl
  case FSQRT =>
    rcases vs with _ | ⟨a, t⟩ <;>
      exact good_pop_emit_push rfl (by simp [diffCallsIn])
  case ROTL =>
    rcases vs with _ | ⟨a, _ | ⟨b, t⟩⟩ <;> exact good_push rfl
  case INSERT_VECTOR_ELT =>
    rcases vs with _ | ⟨a, _ | ⟨b, _ | ⟨c, t⟩⟩⟩ <;> exact good_push rfl
  case EXTRACT_VECTOR_ELT =>
    rcases vs with _ | ⟨a, _ | ⟨b, t⟩⟩ <;> exact good_push rfl
  case SMUL_LOHI =>
    rcases vs with _ | ⟨a, _ | ⟨b, t⟩⟩ <;> exact good_push rfl
  case UMUL_LOHI =>
    rcases vs with _ | ⟨a, _ | ⟨b, t⟩⟩ <;> exact good_push rfl
  case LOAD => refine good_trans ?_ good_doLoad; exact good_of_core_eq rfl
  case STORE => refine good_trans ?_ good_doStore; exact good_of_core_eq rfl
  case BRIND =>
    rcases vs with _ | ⟨a, t⟩ <;>
    · refine good_trans ?_ (good_emit (by simp [diffCallsIn]))
      refine good_trans ?_ good_insertCall
      exact good_pop_setReg rfl
  case BR =>
    rcases vs with _ | ⟨a, t⟩ <;>
    · dsimp only
      refine good_trans ?_ (good_emit (by simp [diffCallsIn]))
      refine good_trans ?_ good_getOrCreate
      exact good_pop_setReg rfl
  case TRAP =>
    exact good_pop_emit rfl (by simp [diffCallsIn])
  case PUT_RC =>
    rcases vs with _ | ⟨a, t⟩ <;>
    · dsimp only
      split_ifs <;>
        first
          | exact good_pop_emit_setReg rfl (by simp [diffCallsIn])
          | exact good_pop_setReg rfl
  case PUT_REG =>
    rcases vs with _ | ⟨a, t⟩ <;> exact good_pop_setReg rfl
  case GET_RC =>
    exact good_pop_emit_push rfl (by simp [diffCallsIn])
  case GET_REG =>
    exact good_pop_emit_push rfl (by simp [diffCallsIn])
  case CUSTOM_OP =>
    rw [hnco]
    exact good_of_core_eq rfl
  case COMPLEX_PATTERN =>
    rw [hncp]
    exact good_of_core_eq rfl
  case PREDICATE =>
    refine good_trans ?_ good_translatePredicate; exact good_of_core_eq rfl
  case CONSTANT_OP => exact good_push rfl
  case MOV_CONSTANT => exact good_push rfl
  case IMPLICIT =>
    rw [hnim]
    exact good_of_core_eq rfl
  case BSWAP =>
    rcases vs with _ | ⟨a, t⟩ <;>
      exact good_pop_emit_push rfl (by simp [diffCallsIn])
  case ATOMIC_FENCE =>
    rcases vs with _ | ⟨a, _ | ⟨b, t⟩⟩ <;>
    · dsimp only
      split
      · exact good_pop_emit rfl (by simp [diffCallsIn])
      · exact good_of_core_eq rfl
  case END_OF_INSTRUCTION => exact good_of_core_eq rfl
  case UNKNOWN n => exact good_of_core_eq rfl

theorem good_opcodeLoop {e : Env} {st : Nat} (hn : NoHooks e) :
    ∀ (fuel : Nat) (s : St), Good e st s (opcodeLoop e fuel s).2 := by
  intro fuel
  induction fuel with
  | zero => intro s; exact good_refl e st s
  | succ n ih =>
    intro s
    unfold opcodeLoop next
    dsimp only
    split
    · exact good_of_core_eq rfl
    · split
      · rename_i s2 heq
        have hg := @good_translateOpcode e st { s with idx := s.idx + 1 } hn
          ((e.sem.getD s.idx (Token.op .END_OF_INSTRUCTION)).asOp)
        rw [heq] at hg
        refine good_trans (good_trans ?_ hg) (ih _)
        exact good_of_core_eq rfl
      · rename_i s2 heq
        have hg := @good_translateOpcode e st { s with idx := s.idx + 1 } hn
          ((e.sem.getD s.idx (Token.op .END_OF_INSTRUCTION)).asOp)
        rw [heq] at hg
        refine good_trans ?_ hg
        exact good_of_core_eq rfl

theorem good_tryTranslateInst {e : Env} {st : Nat} {s : St}
    {di : MCDecodedInst} (hn : NoHooks e) :
    Good e st s (tryTranslateInst e s di).2 := by
  unfold tryTranslateInst
  rw [hn.1 di s]
  dsimp only [getReg]
  split
  · exact good_refl e st s
  · refine good_trans ?_ (good_opcodeLoop hn _ _)
    exact good_pop_emit_setReg rfl (by simp [diffCallsIn])

theorem good_scratch {e : Env} {st : Nat} {s s2 : St} {vs : List Val}
    {ci : Option MCDecodedInst} (h : Good e st s s2) :
    Good e st s { s2 with vals := vs, curInst := ci } :=
  good_trans h (good_of_core_eq rfl)

theorem good_translateInst {e : Env} {st : Nat} {s : St} {di : MCDecodedInst}
    (hn : NoHooks e) : Good e st s (translateInst e s di).2 := by
  unfold translateInst instAddrSaveStep
  dsimp only
  refine good_scratch ?_
  have hne : ¬(false = true) := by simp
  have htr : (true = true) := rfl
  cases hsave : e.enableInstAddrSave
  · rw [if_neg hne]
    have hR : Good e st s (tryTranslateInst e { s with curInst := some di } di).2 := by
      refine good_trans ?_ (good_tryTranslateInst hn)
      exact good_of_core_eq rfl
    cases hc : (!(tryTranslateInst e { s with curInst := some di } di).1 &&
        e.translateUnknownToUndef)
    · rw [if_neg hne]
      exact hR
    · rw [if_pos htr]
      refine good_trans ?_ (good_emit (by simp [diffCallsIn]))
      refine good_trans ?_ (good_emit (by simp [diffCallsIn]))
      exact hR
  · rw [if_pos htr]
    have hR : Good e st s (tryTranslateInst e
        (emit { s with curInst := some di }
          (.storeMem (.cst (.int 64) di.address) .currentInstrPtr)) di).2 := by
      refine good_trans ?_ (good_tryTranslateInst hn)
      exact good_pop_emit rfl (by simp [diffCallsIn])
    cases hc : (!(tryTranslateInst e
        (emit { s with curInst := some di }
          (.storeMem (.cst (.int 64) di.address) .currentInstrPtr)) di).1 &&
        e.translateUnknownToUndef)
    · rw [if_neg hne]
      exact hR
    · rw [if_pos htr]
      refine good_trans ?_ (good_emit (by simp [diffCallsIn]))
      refine good_trans ?_ (good_emit (by simp [diffCallsIn]))
      exact hR

theorem inv_tailCall {e : Env} {st : Nat} {s : St} {a : Nat}
    (hs : Inv e st s) : Inv e st (createExternalTailCallBB e s a) := by
  unfold createExternalTailCallBB
  exact inv_emit ((good_insertCallBB (by simp)).1 (inv_switch hs))
    (by simp [diffCallsIn])

/-- The state built by the constructor, regset diffing off. -/
theorem mk_eq_off {e : Env} (startAddr : Nat) (hf : e.enableRegSetDiff = false) :
    mkDCFunction e startAddr =
      { blk := updBlk (updBlk (updBlk (updBlk (updBlk (fun _ => ⟨"", []⟩) 0
            ⟨"entry_fn_" ++ hexStr startAddr, []⟩) 1
            ⟨"exit_fn_" ++ hexStr startAddr, []⟩) 1
            ⟨"exit_fn_" ++ hexStr startAddr, [.ret]⟩) 2
            ⟨"bb_" ++ hexStr startAddr, [.call .trap [], .unreachable]⟩) 0
            ⟨"entry_fn_" ++ hexStr startAddr, [.br 2]⟩,
        nblk := 3, bbByAddr := [(startAddr, 2)], callBBs := [],
        theBB := 0, exitBB := 1, diffBB := 1, vals := [], idx := 0,
        resEVT := .ty (.int 0), curInst := none } := by
  unfold mkDCFunction
  rw [hf]
  rfl

/-- The state built by the constructor, regset diffing on. -/
theorem mk_eq_on {e : Env} (startAddr : Nat) (hf : e.enableRegSetDiff = true) :
    mkDCFunction e startAddr =
      { blk := updBlk (updBlk (updBlk (updBlk (updBlk (updBlk (updBlk (updBlk
            (fun _ => ⟨"", []⟩) 0
            ⟨"entry_fn_" ++ hexStr startAddr, []⟩) 1
            ⟨"exit_fn_" ++ hexStr startAddr, []⟩) 0
            ⟨"entry_fn_" ++ hexStr startAddr, [.loadMem .regSetT .arg]⟩) 0
            ⟨"entry_fn_" ++ hexStr startAddr,
              [.loadMem .regSetT .arg,
               .storeMem (.load .regSetT .arg) .savedRegSet]⟩) 2
            ⟨"diff_exit_fn_" ++ hexStr startAddr, diffExitBody startAddr⟩) 1
            ⟨"exit_fn_" ++ hexStr startAddr, [.br 2]⟩) 3
            ⟨"bb_" ++ hexStr startAddr, [.call .trap [], .unreachable]⟩) 0
            ⟨"entry_fn_" ++ hexStr startAddr,
              [.loadMem .regSetT .arg,
               .storeMem (.load .regSetT .arg) .savedRegSet, .br 3]⟩,
        nblk := 4, bbByAddr := [(startAddr, 3)], callBBs := [],
        theBB := 0, exitBB := 1, diffBB := 2, vals := [], idx := 0,
        resEVT := .ty (.int 0), curInst := none } := by
  unfold mkDCFunction
  rw [hf]
  rfl

theorem inv_mk (e : Env) (startAddr : Nat) :
    Inv e startAddr (mkDCFunction e startAddr) := by
  cases hf : e.enableRegSetDiff
  case false =>
    rw [mk_eq_off startAddr hf]
    refine
      { exit_eq := rfl
        diff_eq := by simp [hf]
        base_le := by simp [entryBase, hf]
        theBB_lt := by norm_num
        theBB_ne_exit := by norm_num
        theBB_ne_diff := fun hff => by rw [hf] at hff; exact Bool.noConfusion hff
        theBB_notin := by simp
        exit_body := by simp [hf, St.blockAt, updBlk]
        diff_body := fun hff => by rw [hf] at hff; exact Bool.noConfusion hff
        entry_saves := fun hff => by rw [hf] at hff; exact Bool.noConfusion hff
        call_ok := by intro cb hm; simp at hm
        call_nodup := List.nodup_nil
        map_ok := ?_, diff_only := ?_ }
    · intro a b h
      simp only [lookupA] at h
      by_cases hsa : startAddr = a
      · rw [if_pos hsa] at h
        injection h with h
        subst h
        exact ⟨by simp [entryBase, hf], by norm_num, by simp⟩
      · rw [if_neg hsa] at h
        exact absurd h (by simp)
    · intro b hb
      simp only [St.blockAt, updBlk]
      by_cases h0 : b = 0
      · simp [h0, diffCallsIn]
      · by_cases h2b : b = 2
        · simp [h0, h2b, diffCallsIn]
        · simp only [] at hb
          simp [h0, h2b, hb, diffCallsIn]
  case true =>
    rw [mk_eq_on startAddr hf]
    refine
      { exit_eq := rfl
        diff_eq := by simp [hf]
        base_le := by simp [entryBase, hf]
        theBB_lt := by norm_num
        theBB_ne_exit := by norm_num
        theBB_ne_diff := fun _ => by norm_num
        theBB_notin := by simp
        exit_body := by simp [hf, St.blockAt, updBlk]
        diff_body := fun _ => by simp [St.blockAt, updBlk]
        entry_saves := fun _ => ⟨[.br 3], by simp [St.blockAt, updBlk]⟩
        call_ok := by intro cb hm; simp at hm
        call_nodup := List.nodup_nil
        map_ok := ?_, diff_only := ?_ }
    · intro a b h
      simp only [lookupA] at h
      by_cases hsa : startAddr = a
      · rw [if_pos hsa] at h
        injection h with h
        subst h
        exact ⟨by simp [entryBase, hf], by norm_num, by simp⟩
      · rw [if_neg hsa] at h
        exact absurd h (by simp)
    · intro b hb
      simp only [St.blockAt, updBlk]
      by_cases h0 : b = 0
      · simp [h0, diffCallsIn]
      · by_cases h3b : b = 3
        · simp [h0, h3b, diffCallsIn]
        · by_cases h1 : b = 1
          · simp [h0, h3b, h1, diffCallsIn]
          · simp only [] at hb
            simp [h0, h3b, h1, hb, diffCallsIn]

/-- Every reachable state of the hook-free translator satisfies the
structural invariant. -/
theorem reach_inv {e : Env} {startAddr : Nat} {s : St} (hn : NoHooks e)
    (h : Reach e startAddr s) : Inv e startAddr s := by
  induction h with
  | init => exact inv_mk e startAddr
  | switchBB a _ ih => exact inv_switch ih
  | finalizeBB endA _ ih => exact inv_finalizeBB ih
  | transInst di _ ih => exact (good_translateInst hn).1 ih
  | extTailCall a _ ih => exact inv_tailCall ih

/-! ### The claims -/

/-- C3: `getOrCreateBasicBlock` is idempotent — a second call for the same
address returns the block the first call produced and leaves the state
unchanged (no two blocks share an address) — and a first call for an unmapped
address creates a fresh block named `bb_<hex(addr)>` whose body is exactly a
call to the trap intrinsic followed by `unreachable`. -/
theorem claim_C3 (s : St) (a : Nat) :
    getOrCreateBasicBlock (getOrCreateBasicBlock s a).2 a =
      ((getOrCreateBasicBlock s a).1, (getOrCreateBasicBlock s a).2) ∧
    (lookupA s.bbByAddr a = none →
      (getOrCreateBasicBlock s a).1 = s.nblk ∧
      ((getOrCreateBasicBlock s a).2.blockAt (getOrCreateBasicBlock s a).1).name =
        "bb_" ++ hexStr a ∧
      ((getOrCreateBasicBlock s a).2.blockAt (getOrCreateBasicBlock s a).1).body =
        [.call .trap [], .unreachable]) := by
  cases hl : lookupA s.bbByAddr a with
  | some b =>
    rw [getOrCreate_eq_of_found hl]
    exact ⟨getOrCreate_eq_of_found hl, fun hq => by simp [hl] at hq⟩
  | none =>
    rw [getOrCreate_eq_of_none hl]
    dsimp only
    refine ⟨?_, fun _ => ⟨rfl, ?_, ?_⟩⟩
    · exact getOrCreate_eq_of_found (by simp [lookupA])
    · simp [St.blockAt, updBlk]
    · simp [St.blockAt, updBlk]

/-- Closed instance of `claim_C3`: in a freshly constructed function the
address 81 is unmapped, so its block is created with the trap/unreachable
placeholder body. -/
theorem claim_C3_witness :
    (getOrCreateBasicBlock stB 81).1 = stB.nblk ∧
    ((getOrCreateBasicBlock stB 81).2.blockAt (getOrCreateBasicBlock stB 81).1).body =
      [.call .trap [], .unreachable] := by
  have h := (claim_C3 stB 81).2 (by decide)
  exact ⟨h.1, h.2.2⟩

/-- C4: `translateBinOp` pops two operands and pushes one binop result; for
shift opcodes, a right-hand operand narrower than the left-hand operand is
zero-extended to the left-hand type before the shift. -/
theorem claim_C4 (s : St) (op : BinOp) (v1 v2 : Val) (rest : List Val)
    (hv : s.vals = v1 :: v2 :: rest) :
    (translateBinOp s op).vals =
      rest ++ [Val.binop op v1
        (if op.isShift = true ∧ v2.ty ≠ v1.ty then Val.cast .zext v1.ty v2 else v2)] ∧
    (∀ w1 w2 : Nat, op.isShift = true → v1.ty = .int w1 → v2.ty = .int w2 → w2 < w1 →
      (translateBinOp s op).vals =
        rest ++ [Val.binop op v1 (Val.cast .zext v1.ty v2)]) := by
  obtain ⟨bl, nb, mp, cb, tb, ex, df, vs, ix, ev, ci⟩ := s
  have hv' : vs = v1 :: v2 :: rest := hv
  subst hv'
  unfold translateBinOp getNextOperand registerResult
  dsimp only
  refine ⟨rfl, ?_⟩
  intro w1 w2 hsh h1 h2 hlt
  have hc : op.isShift = true ∧ v2.ty ≠ v1.ty :=
    ⟨hsh, by rw [h1, h2]; intro hq; injection hq with hq; omega⟩
  rw [if_pos hc]

/-- Closed instance of `claim_C4`: shifting a 64-bit value by a 32-bit count
zero-extends the count to 64 bits. -/
theorem claim_C4_witness :
    (translateBinOp stC4 .shl).vals =
      [Val.binop .shl (.reg 1 (.int 64)) (.cast .zext (.int 64) (.reg 2 (.int 32)))] := by
  have h := (claim_C4 stC4 .shl (.reg 1 (.int 64)) (.reg 2 (.int 32)) [] rfl).2
    64 32 rfl rfl rfl (by omega)
  simpa [Val.ty] using h

/-- C5: `SMUL_LOHI`/`UMUL_LOHI` read a second value type for the hi half,
sign-extend (`SMUL`) or zero-extend (`UMUL`) both popped factors to width
`lo_bits + hi_bits`, multiply at that width, and push the truncation of the
product to the lo type followed by the truncation of the product logically
shifted right by `lo_bits` to the hi type. -/
theorem claim_C5 (e : Env) (s : St) (a b : Val) (rest : List Val) (lw hw : Nat)
    (hv : s.vals = a :: b :: rest)
    (h1 : ((e.sem.getD s.idx (Token.op .END_OF_INSTRUCTION)).asVT).toTy = .int lw)
    (h2 : ((e.sem.getD (s.idx + 1) (Token.op .END_OF_INSTRUCTION)).asVT).toTy = .int hw) :
    (translateOpcode e s .SMUL_LOHI).1 = true ∧
    (translateOpcode e s .SMUL_LOHI).2.vals =
      rest ++
        [Val.cast .trunc (.int lw)
          (.binop .mul (.cast .sext (.int (lw + hw)) a) (.cast .sext (.int (lw + hw)) b)),
         Val.cast .trunc (.int hw)
          (.binop .lshr
            (.binop .mul (.cast .sext (.int (lw + hw)) a) (.cast .sext (.int (lw + hw)) b))
            (.cst (.int (lw + hw)) lw))] ∧
    (translateOpcode e s .UMUL_LOHI).1 = true ∧
    (translateOpcode e s .UMUL_LOHI).2.vals =
      rest ++
        [Val.cast .trunc (.int lw)
          (.binop .mul (.cast .zext (.int (lw + hw)) a) (.cast .zext (.int (lw + hw)) b)),
         Val.cast .trunc (.int hw)
          (.binop .lshr
            (.binop .mul (.cast .zext (.int (lw + hw)) a) (.cast .zext (.int (lw + hw)) b))
            (.cst (.int (lw + hw)) lw))] := by
  obtain ⟨bl, nb, mp, cb, tb, ex, df, vs, ix, ev, ci⟩ := s
  have hv' : vs = a :: b :: rest := hv
  subst hv'
  have h1' : ((e.sem.getD ix (Token.op .END_OF_INSTRUCTION)).asVT).toTy = .int lw := h1
  have h2' : ((e.sem.getD (ix + 1) (Token.op .END_OF_INSTRUCTION)).asVT).toTy = .int hw := h2
  unfold translateOpcode nextVT next getNextOperand registerResult
  dsimp only
  rw [h1', h2']
  simp [Ty.asIntWidth]

/-- Closed instance of `claim_C5`: a 32x32 signed widening multiply pushes
the low and high 32-bit truncations of the 64-bit product. -/
theorem claim_C5_witness :
    (translateOpcode envC5 stC5 .SMUL_LOHI).2.vals =
      [Val.cast .trunc (.int 32)
        (.binop .mul (.cast .sext (.int 64) (.reg 1 (.int 32)))
          (.cast .sext (.int 64) (.reg 2 (.int 32)))),
       Val.cast .trunc (.int 32)
        (.binop .lshr
          (.binop .mul (.cast .sext (.int 64) (.reg 1 (.int 32)))
            (.cast .sext (.int 64) (.reg 2 (.int 32))))
          (.cst (.int 64) 32))] := by
  have h := claim_C5 envC5 stC5 (.reg 1 (.int 32)) (.reg 2 (.int 32)) [] 32 32
    rfl rfl rfl
  simpa using h.2.1

/-- C1: for a decoded instruction whose opcode has semantics (no UNS
sentinel) and is not claimed whole by the target hook, the first IR effects
`tryTranslateInst` emits into the current block are the PC read and the
write-back of PC plus the instruction's byte size, ahead of whatever the
semantic opcodes emit. -/
theorem claim_C1 (e : Env) (s : St) (di : MCDecodedInst) (hn : NoHooks e)
    (hsema : e.opcodeToSemaIdx di.opcode ≠ UNS) (hlt : s.theBB < s.nblk) :
    ∃ rest,
      ((tryTranslateInst e s di).2.blockAt s.theBB).body =
        (s.blockAt s.theBB).body ++
          Inst.readReg e.programCounter ::
          Inst.writeReg e.programCounter
            (.binop .add (.reg e.programCounter (e.getRegType e.programCounter))
              (.cst (e.getRegType e.programCounter) di.size)) :: rest := by
  unfold tryTranslateInst
  rw [hn.1]
  dsimp only [getReg, Val.ty]
  rw [if_neg hsema]
  have hext := (@good_opcodeLoop e 0 hn (e.sem.length + 1)
    (setReg e (emit { s with idx := e.opcodeToSemaIdx di.opcode }
        (Inst.readReg e.programCounter)) e.programCounter
      (Val.binop .add (Val.reg e.programCounter (e.getRegType e.programCounter))
        (Val.cst (e.getRegType e.programCounter) di.size)))).2
  obtain ⟨t, ht⟩ := hext.2 s.theBB hlt
  refine ⟨t, ?_⟩
  rw [ht]
  simp [setReg, emit, appendAt, setBlk, St.blockAt, updBlk]

/-- Closed instance of `claim_C1`: under `envC1` the opened block at the
start address receives the PC read and the PC+4 write-back first. -/
theorem claim_C1_witness :
    ∃ rest,
      ((tryTranslateInst envC1 sC1 diW).2.blockAt sC1.theBB).body =
        (sC1.blockAt sC1.theBB).body ++
          Inst.readReg 100 ::
          Inst.writeReg 100
            (.binop .add (.reg 100 (.int 64)) (.cst (.int 64) 4)) :: rest :=
  claim_C1 envC1 sC1 diW
    ⟨fun _ _ => rfl, fun _ _ => rfl, fun _ _ => rfl, fun _ _ _ => rfl, fun _ _ => rfl⟩
    (by decide) (by decide)

/-- C2: `translateInst` returns true exactly when `tryTranslateInst`
succeeds or the unknown-to-undef policy is on; with the policy on, a failed
translation appends `trap(); unreachable` to the current block and still
reports success, otherwise failure bubbles up. -/
theorem claim_C2 (e : Env) (s : St) (di : MCDecodedInst) (r : Bool × St)
    (hr : r = tryTranslateInst e (instAddrSaveStep e { s with curInst := some di } di) di) :
    (translateInst e s di).1 = (r.1 || e.translateUnknownToUndef) ∧
    (r.1 = true → (translateInst e s di).1 = true) ∧
    (r.1 = false → e.translateUnknownToUndef = false → (translateInst e s di).1 = false) ∧
    (r.1 = false → e.translateUnknownToUndef = true →
      ((translateInst e s di).2.blockAt r.2.theBB).body =
        (r.2.blockAt r.2.theBB).body ++ [.call .trap [], .unreachable]) := by
  unfold translateInst
  dsimp only
  rw [← hr]
  obtain ⟨b, s2⟩ := r
  cases b <;> cases hu : e.translateUnknownToUndef <;>
    simp [hu, St.blockAt, emit, appendAt, setBlk, updBlk]

/-- Closed instance of `claim_C2`: under `envC2` every opcode lacks
semantics, yet with the undef policy on the instruction still reports
success. -/
theorem claim_C2_witness : (translateInst envC2 sC2 diW).1 = true := by
  have h := claim_C2 envC2 sC2 diW
    (tryTranslateInst envC2 (instAddrSaveStep envC2 { sC2 with curInst := some diW } diW) diW)
    rfl
  rw [h.1]
  decide

/-- The core's own complex-pattern translation declines every pattern, so a
`COMPLEX_PATTERN` record fails the opcode. -/
theorem complexPattern_fails (e : Env) (s : St)
    (h : ∀ p t, e.translateComplexPatternH p t = none) :
    (translateOpcode e s .COMPLEX_PATTERN).1 = false := by
  unfold translateOpcode nextVT next
  dsimp only
  rw [h]

/-- A tape whose cursor sits on a `COMPLEX_PATTERN` record makes the opcode
loop fail when the complex-pattern hook declines. -/
theorem opcodeLoop_complexPattern (e : Env)
    (h : ∀ p t, e.translateComplexPatternH p t = none) (fuel : Nat) (s : St)
    (htok : (e.sem.getD s.idx (Token.op .END_OF_INSTRUCTION)).asOp =
      SemaOp.COMPLEX_PATTERN) :
    (opcodeLoop e (fuel + 1) s).1 = false := by
  unfold opcodeLoop next
  dsimp only
  rw [htok]
  dsimp only
  have hf := complexPattern_fails e { s with idx := s.idx + 1 } h
  rcases hq : translateOpcode e { s with idx := s.idx + 1 } .COMPLEX_PATTERN with ⟨b2, s3⟩
  rw [hq] at hf
  dsimp only at hf
  subst hf
  rfl

/-- C9: the core's `translateComplexPattern` returns null for every pattern
id, so without a target override every `COMPLEX_PATTERN` record makes
`translateOpcode` return false, and with the undef policy off that fails the
whole instruction. -/
theorem claim_C9 :
    (∀ p, translateComplexPatternCore p = none) ∧
    (∀ (e : Env) (s : St), e.translateComplexPatternH = coreComplexPatternHook →
      (translateOpcode e s .COMPLEX_PATTERN).1 = false) ∧
    (∀ (e : Env) (s : St) (di : MCDecodedInst), NoHooks e →
      e.translateUnknownToUndef = false →
      e.opcodeToSemaIdx di.opcode ≠ UNS →
      (e.sem.getD (e.opcodeToSemaIdx di.opcode) (Token.op .END_OF_INSTRUCTION)).asOp =
        SemaOp.COMPLEX_PATTERN →
      (translateInst e s di).1 = false) := by
  refine ⟨fun p => rfl, ?_, ?_⟩
  · intro e s hh
    exact complexPattern_fails e s (fun p t => by rw [hh]; rfl)
  · intro e s di hn hu hsema htok
    unfold translateInst
    dsimp only
    rw [hu, Bool.and_false]
    have hne : ¬(false = true) := by simp
    rw [if_neg hne]
    unfold tryTranslateInst
    rw [hn.1]
    dsimp only [getReg, Val.ty]
    rw [if_neg hsema]
    refine opcodeLoop_complexPattern e (fun p t => hn.2.2.1 p t) e.sem.length _ ?_
    exact htok

/-- Closed instance of `claim_C9`: under `envC9` (core complex-pattern hook,
undef policy off) the `COMPLEX_PATTERN` opcode and the whole instruction
fail. -/
theorem claim_C9_witness :
    (translateOpcode envC9 stC4 .COMPLEX_PATTERN).1 = false ∧
    (translateInst envC9 stC4 diW).1 = false :=
  ⟨claim_C9.2.1 envC9 stC4 rfl,
   claim_C9.2.2 envC9 stC4 diW
    ⟨fun _ _ => rfl, fun _ _ => rfl, fun _ _ => rfl, fun _ _ _ => rfl, fun _ _ => rfl⟩
    rfl (by decide) rfl⟩

/-- C6 (amended): `BRIND` writes the target to PC, inserts the call through
the call-BB mechanism and branches to the exit block; the callee goes
through the `translate_at` intrinsic only for a non-constant target — a
constant target resolves directly to the IR function at that address and no
`translate_at` call is emitted. -/
theorem claim_C6 (e : Env) (s : St) (v : Val) (rest : List Val)
    (hv : s.vals = v :: rest) (hlt : s.theBB < s.nblk) :
    (translateOpcode e s .BRIND).1 = true ∧
    ((translateOpcode e s .BRIND).2.blockAt s.theBB).body =
      (s.blockAt s.theBB).body ++
        [Inst.writeReg e.programCounter v] ++
        (match v with
         | .cst _ _ => []
         | w => [Inst.call .translateAt [.cast .inttoptr (.ptrTo (.int 8)) w]]) ++
        [.br s.nblk] ∧
    ((translateOpcode e s .BRIND).2.blockAt s.nblk).body =
      [.call (match v with | .cst _ n => Callee.func n | w => .viaPtr (.translateAtPtr w))
        [.arg],
       .br (s.nblk + 1)] ∧
    ((translateOpcode e s .BRIND).2.blockAt (s.nblk + 1)).body = [.br s.exitBB] ∧
    (translateOpcode e s .BRIND).2.theBB = s.nblk + 1 ∧
    (translateOpcode e s .BRIND).2.callBBs = s.callBBs ++ [s.nblk] := by
  obtain ⟨bl, nb, mp, cb, tb, ex, df, vs, ix, ev, ci⟩ := s
  have hlt' : tb < nb := hlt
  have hv' : vs = v :: rest := hv
  subst hv'
  have h1 : ¬(tb = nb) := by omega
  have h2 : ¬(tb = nb + 1) := by omega
  have h3 : ¬(nb = nb + 1) := by omega
  have h4 : ¬(nb + 1 = nb) := by omega
  have h5 : ¬(nb = tb) := by omega
  have h6 : ¬(nb + 1 = tb) := by omega
  cases v <;>
    simp [translateOpcode, nextVT, next, getNextOperand, setReg, insertCall,
      insertTranslateAt, insertCallBB, newBlock, emit, appendAt, setBlk,
      St.blockAt, updBlk, h1, h2, h3, h4, h5, h6]

/-- Counterexample to C6 as stated: the `BRIND` instruction `diW` under
`envBR` has the constant target 0x2000, the translation succeeds and writes
the target to PC, yet the resulting function contains no `translate_at`
call at all — the call block calls the function at 0x2000 directly. -/
theorem claim_C6_counterexample :
    (translateInst envBR (switchToBasicBlock envBR (mkDCFunction envBR 4096) 4096) diW).1 =
      true ∧
    countTranslateAt sBR = 0 ∧
    (sBR.blockAt 4).body = [.call (.func 8192) [.arg], .br 5] ∧
    Inst.writeReg 100 (.cst (.int 64) 8192) ∈ (sBR.blockAt 3).body :=
  ⟨by decide, by decide, by decide, by decide⟩

/-- Closed instance of `claim_C6`: a non-constant `BRIND` target does go
through the `translate_at` intrinsic. -/
theorem claim_C6_witness :
    ((translateOpcode envC1 stC6 .BRIND).2.blockAt stC6.theBB).body =
      (stC6.blockAt stC6.theBB).body ++
        [Inst.writeReg 100 (.reg 5 (.int 64)),
         Inst.call .translateAt [.cast .inttoptr (.ptrTo (.int 8)) (.reg 5 (.int 64))],
         Inst.br stC6.nblk] ∧
    ((translateOpcode envC1 stC6 .BRIND).2.blockAt stC6.nblk).body =
      [.call (.viaPtr (.translateAtPtr (.reg 5 (.int 64)))) [.arg],
       .br (stC6.nblk + 1)] := by
  have h := claim_C6 envC1 stC6 (.reg 5 (.int 64)) [] rfl (by decide)
  exact ⟨by simpa using h.2.1, h.2.2.1⟩

theorem pathDiffCount_nil (s : St) : pathDiffCount s [] = 0 := rfl

theorem pathDiffCount_cons (s : St) (x : Nat) (t : List Nat) :
    pathDiffCount s (x :: t) =
      diffCallsIn (s.blockAt x).body + pathDiffCount s t := by
  simp [pathDiffCount]

theorem pathDiff_zero (s : St)
    (h : ∀ b, diffCallsIn (s.blockAt b).body = 0) :
    ∀ p, pathDiffCount s p = 0 := by
  intro p
  induction p with
  | nil => rfl
  | cons x t ih => rw [pathDiffCount_cons, h x, ih]

theorem pathDiff_mem_le (s : St) (p : List Nat) (b : Nat) (hb : b ∈ p) :
    diffCallsIn (s.blockAt b).body ≤ pathDiffCount s p := by
  induction p with
  | nil => cases hb
  | cons x t ih =>
    rw [pathDiffCount_cons]
    rcases List.mem_cons.mp hb with h | h
    · subst h; omega
    · have := ih h; omega

/-- On a path through the emitted CFG, a block with no successors is passed
at most once, so its single diff call is counted at most once. -/
theorem pathDiff_le_one (s : St) (d : Nat)
    (h0 : ∀ b, b ≠ d → diffCallsIn (s.blockAt b).body = 0)
    (hd : diffCallsIn (s.blockAt d).body = 1)
    (hsd : succsOf s d = []) :
    ∀ p, isPathB s p = true → pathDiffCount s p ≤ 1 := by
  intro p
  induction p with
  | nil => intro _; simp [pathDiffCount_nil]
  | cons x t ih =>
    cases t with
    | nil =>
      intro _
      rw [pathDiffCount_cons, pathDiffCount_nil]
      by_cases hx : x = d
      · subst hx; omega
      · have := h0 x hx; omega
    | cons y t2 =>
      intro hp
      unfold isPathB at hp
      rw [Bool.and_eq_true] at hp
      rw [pathDiffCount_cons]
      by_cases hx : x = d
      · subst hx
        rw [hsd] at hp
        simp at hp
      · have hz := h0 x hx
        have hy := ih hp.2
        omega

/-- On a path, a member that is not the path's last element is followed by
one of its successors. -/
theorem path_mem_next (s : St) :
    ∀ (p : List Nat) (a : Nat), isPathB s p = true → a ∈ p →
      p.getLast? ≠ some a → ∃ b, b ∈ succsOf s a ∧ b ∈ p := by
  intro p
  induction p with
  | nil => intro a _ ha _; cases ha
  | cons x t ih =>
    intro a hp ha hlast
    cases t with
    | nil =>
      rcases List.mem_cons.mp ha with h | h
      · subst h
        exact absurd rfl hlast
      · cases h
    | cons y t2 =>
      unfold isPathB at hp
      rw [Bool.and_eq_true] at hp
      rcases List.mem_cons.mp ha with h | h
      · subst h
        have hy : y ∈ succsOf s a := by
          have hq := hp.1
          simp [List.any_eq_true] at hq
          exact hq
        exact ⟨y, hy, List.mem_cons_of_mem _ (List.mem_cons_self _ _)⟩
      · have hlast2 : (y :: t2).getLast? ≠ some a := by
          intro hc
          exact hlast (by rw [List.getLast?_cons_cons]; exact hc)
        obtain ⟨b, hb1, hb2⟩ := ih a hp.2 h hlast2
        exact ⟨b, hb1, List.mem_cons_of_mem _ hb2⟩

/-- C7 (amended): with regset diffing on, the entry block saves the incoming
register set, the exit block branches to the diff-exit block whose body is
one diff call and a return, and every CFG path that ends in a `ret` and
passes through the exit block crosses exactly one diff call; with the flag
off, no path crosses any. (The tail-call return path bypasses the exit
block, see the counterexample.) -/
theorem claim_C7 (e : Env) (startAddr : Nat) (s : St) (hn : NoHooks e)
    (hr : Reach e startAddr s) :
    (e.enableRegSetDiff = true →
      (s.blockAt s.exitBB).body = [.br s.diffBB] ∧
      (s.blockAt s.diffBB).body = diffExitBody startAddr ∧
      (∃ t, (s.blockAt 0).body =
        .loadMem .regSetT .arg :: .storeMem (.load .regSetT .arg) .savedRegSet :: t) ∧
      (∀ p, isPathB s p = true → endsInRet s p = true → s.exitBB ∈ p →
        pathDiffCount s p = 1)) ∧
    (e.enableRegSetDiff = false → ∀ p, pathDiffCount s p = 0) := by
  have hs := reach_inv hn hr
  constructor
  · intro hf
    have hde : s.diffBB = 2 := by rw [hs.diff_eq, if_pos hf]
    refine ⟨?_, ?_, hs.entry_saves hf, ?_⟩
    · rw [hs.exit_eq, hde, hs.exit_body, if_pos hf]
    · rw [hde]
      exact hs.diff_body hf
    · intro p hp hret hmem
      have h0 : ∀ b, b ≠ 2 → diffCallsIn (s.blockAt b).body = 0 := fun b hb =>
        hs.diff_only b (by rw [hde]; exact hb)
      have hd1 : diffCallsIn (s.blockAt 2).body = 1 := by
        rw [hs.diff_body hf]
        simp [diffExitBody, diffCallsIn]
      have hsd : succsOf s 2 = [] := by
        unfold succsOf
        rw [hs.diff_body hf]
        simp [diffExitBody]
      have hs1 : succsOf s 1 = [2] := by
        unfold succsOf
        rw [hs.exit_body, if_pos hf]
        simp
      rw [hs.exit_eq] at hmem
      have hlast : p.getLast? ≠ some 1 := by
        intro hl
        unfold endsInRet at hret
        rw [hl] at hret
        dsimp only at hret
        rw [hs.exit_body, if_pos hf] at hret
        simp at hret
      obtain ⟨b, hbs, hbp⟩ := path_mem_next s p 1 hp hmem hlast
      rw [hs1] at hbs
      simp only [List.mem_singleton] at hbs
      subst hbs
      have hge := pathDiff_mem_le s p 2 hbp
      rw [hd1] at hge
      have hle := pathDiff_le_one s 2 h0 hd1 hsd p hp
      omega
  · intro hf
    have hball : ∀ b, diffCallsIn (s.blockAt b).body = 0 := by
      intro b
      by_cases hb : b = s.diffBB
      · have hd1 : s.diffBB = 1 := by rw [hs.diff_eq]; simp [hf]
        rw [hb, hd1, hs.exit_body]
        simp [hf, diffCallsIn]
      · exact hs.diff_only b hb
    exact pathDiff_zero s hball

/-- Counterexample to C7 as stated: with regset diffing on, translating an
external tail call yields a return path `entry → target → call block →
successor(ret)` that bypasses the exit block and crosses no diff call. -/
theorem claim_C7_counterexample :
    envOn.enableRegSetDiff = true ∧
    isPathB sTC [0, 3, 4, 5] = true ∧
    endsInRet sTC [0, 3, 4, 5] = true ∧
    pathDiffCount sTC [0, 3, 4, 5] = 0 :=
  ⟨rfl, by decide, by decide, by decide⟩

/-- Closed instance of `claim_C7`: the constant-`BRIND` function under
`envBR` has the return path `entry → body → call block → successor → exit →
diff exit`, which crosses exactly one diff call. -/
theorem claim_C7_witness : pathDiffCount sBR [0, 3, 4, 5, 1, 2] = 1 := by
  have h := (claim_C7 envBR 4096 sBR
    ⟨fun _ _ => rfl, fun _ _ => rfl, fun _ _ => rfl, fun _ _ _ => rfl, fun _ _ => rfl⟩
    (Reach.transInst diW (Reach.switchBB 4096 Reach.init))).1 rfl
  exact h.2.2.2 [0, 3, 4, 5, 1, 2] (by decide) (by decide) (by decide)

theorem finalize_untouched : ∀ (l : List Nat) (acc : St) (b : Nat), b ∉ l →
    ((l.foldl
        (fun a cb =>
          setBlk a cb ⟨(a.blockAt cb).name, insertSaveRestore (a.blockAt cb).body⟩)
        acc).blockAt b) = acc.blockAt b := by
  intro l
  induction l with
  | nil => intro acc b _; rfl
  | cons c t ih =>
    intro acc b hb
    simp only [List.foldl_cons]
    rw [ih _ b (fun h => hb (List.mem_cons_of_mem _ h))]
    rw [blockAt_setBlk,
      if_neg (fun (h : b = c) => hb (by rw [h]; exact List.mem_cons_self c t))]

theorem finalize_wrapped : ∀ (l : List Nat) (acc : St), l.Nodup →
    ∀ cb ∈ l,
      ((l.foldl
          (fun a cb =>
            setBlk a cb ⟨(a.blockAt cb).name, insertSaveRestore (a.blockAt cb).body⟩)
          acc).blockAt cb) =
        ⟨(acc.blockAt cb).name, insertSaveRestore (acc.blockAt cb).body⟩ := by
  intro l
  induction l with
  | nil => intro acc _ cb hcb; cases hcb
  | cons c t ih =>
    intro acc hnd cb hcb
    have hct : c ∉ t := (List.nodup_cons.mp hnd).1
    have hndt : t.Nodup := (List.nodup_cons.mp hnd).2
    simp only [List.foldl_cons]
    rcases List.mem_cons.mp hcb with h | h
    · subst h
      rw [finalize_untouched t _ cb hct]
      rw [blockAt_setBlk, if_pos rfl]
    · have hne : cb ≠ c := fun (he : cb = c) => hct (he ▸ h)
      rw [ih _ hndt cb h]
      rw [blockAt_setBlk, if_neg hne]

/-- C8: in every reachable state every recorded call block is exactly
`{call, br}`, and finalization wraps each one into
`{save_all_local_regs, call, restore_local_regs, br}` and hands the exit
block to `FinalizeFunction`. -/
theorem claim_C8 (e : Env) (startAddr : Nat) (s : St) (hn : NoHooks e)
    (hr : Reach e startAddr s) :
    (∀ cb ∈ s.callBBs, ∃ c as t, (s.blockAt cb).body = [.call c as, .br t]) ∧
    (∀ cb ∈ s.callBBs, ∃ c as t,
      ((finalizeDCFunction s).1.blockAt cb).body =
        [.saveLocalRegs, .call c as, .restoreLocalRegs, .br t]) ∧
    (finalizeDCFunction s).2 = s.exitBB := by
  have hs := reach_inv hn hr
  refine ⟨fun cb hm => (hs.call_ok cb hm).2.2, ?_, rfl⟩
  intro cb hm
  obtain ⟨c, as, t, hb⟩ := (hs.call_ok cb hm).2.2
  refine ⟨c, as, t, ?_⟩
  unfold finalizeDCFunction
  dsimp only
  rw [finalize_wrapped s.callBBs s hs.call_nodup cb hm, hb]
  rfl

/-- Closed instance of `claim_C8`: finalizing the tail-call function wraps
its one recorded call block in save/restore and returns its exit block. -/
theorem claim_C8_witness :
    (∃ c as t, ((finalizeDCFunction sTC).1.blockAt 4).body =
      [.saveLocalRegs, .call c as, .restoreLocalRegs, .br t]) ∧
    (finalizeDCFunction sTC).2 = 1 := by
  have h := claim_C8 envOn 4096 sTC
    ⟨fun _ _ => rfl, fun _ _ => rfl, fun _ _ => rfl, fun _ _ _ => rfl, fun _ _ => rfl⟩
    (Reach.extTailCall 4096 Reach.init)
  exact ⟨h.2.1 4 (by decide), h.2.2.trans (by decide)⟩

/-- C10: on every return of `translateInst` — success, failure, or failure
converted by the undef policy — the value stack is left empty and the
current-instruction pointer is reset, so a failed instruction leaves no
stale operands behind. -/
theorem claim_C10 (e : Env) (s : St) (di : MCDecodedInst) :
    (translateInst e s di).2.vals = [] ∧ (translateInst e s di).2.curInst = none := by
  unfold translateInst
  dsimp only
  exact ⟨rfl, rfl⟩

end DC
